import Mathlib

/-!
Verification of the elliptic-curve isogeny-class closure subsystem
(`sage/schemes/elliptic_curves/isogeny_class.py`).

The curves, isogenies, class groups and Galois-representation oracles are
external collaborators of this subsystem; they are modelled as an opaque
`Oracle` record.  The closure algorithms (`IsogenyClass_EC_NumberField._compute`,
`IsogenyClass_EC_Rational._compute`), the accessors (`matrix`, `qf_matrix`,
`reorder`, equality and hashing) and the CM prime-degree routine
(`isogeny_degrees_cm`) are translated from the Python source.  The helper
`fill_isogeny_matrix` lives in `ell_curve_isogeny.py`, outside the excerpt,
and is modelled from the specification.
-/

namespace IsogenySpec

set_option linter.unusedSectionVars false

/-- An isogeny is an opaque morphism carrying a domain, a codomain and a
degree (`phi.domain()`, `phi.codomain()`, `phi.degree()`). -/
structure Isogeny (C : Type) where
  dom : C
  cod : C
  deg : ℕ
deriving DecidableEq

/-- A transition tuple `(i, j, l, phi)` recorded by `_compute`: curve `i` is
`l`-isogenous to curve `j`; `phi` is the witness isogeny, or `none` for the
synthesized reverse marker (`0` in the Python source). -/
structure Tup (C : Type) where
  i : ℕ
  j : ℕ
  deg : ℕ
  phi : Option (Isogeny C)
deriving DecidableEq

/-- A binary quadratic form as the closure uses it: its coefficient list,
the predicate `solve_integer` (does the form represent `n`), and
`small_prime_value` (the least prime it represents). -/
structure QF where
  coeffs : List Int
  solve : ℕ → Bool
  spv : ℕ

/-- The external elliptic-curve library, as the isogeny-class closure
consumes it.  `iso` is `is_isomorphic`, `isogs E` is the full list of
prime-degree isogenies out of `E` (the closure filters it by a degree
list, mirroring `isogenies_prime_degree(degs)`), `gmm` is
`global_minimal_model(semi_global=True)`, `mm` is `minimal_model`,
`flatKey` is the flattened list of a-invariant coordinates used as sort
key, `ainvs` is `a_invariants()`, and `forms d` is
`BinaryQF_reduced_representatives(d, primitive_only=True)`. -/
structure Oracle (C : Type) where
  iso : C → C → Bool
  isogs : C → List (Isogeny C)
  hasRationalCM : C → Bool
  cmDisc : C → Int
  flatKey : C → List Int
  ainvs : C → List Int
  gmm : C → C
  mm : C → C
  forms : Int → List QF

variable {C : Type} [DecidableEq C]

/-- `E.isogenies_prime_degree(degs)`: the prime-degree isogenies out of `E`
whose degree lies in the list `degs`. -/
def isogsDeg (O : Oracle C) (E : C) (degs : List ℕ) : List (Isogeny C) :=
  (O.isogs E).filter (fun phi => degs.contains phi.deg)

/-- `add_tup(t)` from `_compute`: append `t`, and then the reverse marker
`[t.j, t.i, t.deg, 0]`, each only when not already present. -/
def add_tup (tuples : List (Tup C)) (t : Tup C) : List (Tup C) :=
  let ts := if tuples.contains t then tuples else tuples ++ [t]
  let r : Tup C := ⟨t.j, t.i, t.deg, none⟩
  if ts.contains r then ts else ts ++ [r]

/-- First index of a list element satisfying `p` (the Python
`js = [j for j, E3 in enumerate(curves) if ...]; js[0]` pattern). -/
def firstIdxP (p : C → Bool) : List C → Option ℕ
  | [] => none
  | c :: l => if p c then some 0 else (firstIdxP p l).map (· + 1)

/-- State of the breadth-first closure: the discovered curves and the
recorded transition tuples. -/
structure St (C : Type) where
  curves : List C
  tuples : List (Tup C)

/-- State of the first pass over the seed curve, which additionally
collects the list `degs` of degrees that produced new curves. -/
structure St1 (C : Type) where
  curves : List C
  tuples : List (Tup C)
  degs : List ℕ

/-- One step of the first pass of `IsogenyClass_EC_NumberField._compute`
(the `for phi in isogenies` loop): skip codomains isomorphic to a known
curve, otherwise append the codomain, record the tuple from index `0`,
and collect the degree. -/
def p1step (O : Oracle C) (s : St1 C) (phi : Isogeny C) : St1 C :=
  if s.curves.any (fun E3 => O.iso phi.cod E3) then s
  else
    { curves := s.curves ++ [phi.cod]
      tuples := add_tup s.tuples ⟨0, s.curves.length, phi.deg, some phi⟩
      degs := if s.degs.contains phi.deg then s.degs else s.degs ++ [phi.deg] }

/-- The first pass of `IsogenyClass_EC_NumberField._compute`: fold the
isogenies of the (semi-minimal) seed `E` of candidate degree over
`p1step`, starting from `curves = [E]`. -/
def phase1 (O : Oracle C) (E : C) (cands : List ℕ) : St1 C :=
  (isogsDeg O E cands).foldl (p1step O) ⟨[E], [], []⟩

/-- One step of the completion loop of
`IsogenyClass_EC_NumberField._compute` (the `for phi in isogenies` body
while processing curve `i`): look for a known curve isomorphic to the
codomain; if found at index `j`, rewrite the codomain onto `curves[j]`
(composition with `isomorphism_to`) and record the tuple; otherwise
append the codomain as a new curve. -/
def p2step (O : Oracle C) (i : ℕ) (s : St C) (phi : Isogeny C) : St C :=
  match firstIdxP (fun E3 => O.iso phi.cod E3) s.curves with
  | some j =>
      let cj := (s.curves.get? j).getD phi.cod
      let phi2 := if phi.cod = cj then phi else ⟨phi.dom, cj, phi.deg⟩
      { s with tuples := add_tup s.tuples ⟨i, j, phi.deg, some phi2⟩ }
  | none =>
      { curves := s.curves ++ [phi.cod]
        tuples := add_tup s.tuples ⟨i, s.curves.length, phi.deg, some phi⟩ }

/-- Process curve `i` of the closure state: fold its prime-degree
isogenies of relevant degree over `p2step`. -/
def processCurve (O : Oracle C) (degs : List ℕ) (s : St C) (i : ℕ) : St C :=
  match s.curves.get? i with
  | none => s
  | some Ei => (isogsDeg O Ei degs).foldl (p2step O i) s

/-- The `while i < ncurves` completion loop of
`IsogenyClass_EC_NumberField._compute`, with explicit fuel (the source
relies on the mathematical finiteness of the isogeny class for
termination). -/
def loop2 (O : Oracle C) (degs : List ℕ) : ℕ → St C → ℕ → Option (St C)
  | 0, s, i => if i < s.curves.length then none else some s
  | fuel + 1, s, i =>
      if i < s.curves.length then loop2 O degs fuel (processCurve O degs s i) (i + 1)
      else some s

/-- Stable insertion of `a` into a sorted list: `a` goes before the
first element it compares `le` to. -/
def insertSorted (le : C → C → Bool) (a : C) : List C → List C
  | [] => [a]
  | b :: l => if le a b then a :: b :: l else b :: insertSorted le a l

/-- Stable insertion sort, the model of the Python `sorted`. -/
def sortBy (le : C → C → Bool) : List C → List C
  | [] => []
  | a :: l => insertSorted le a (sortBy le l)

/-- Lexicographic comparison of integer lists, as Python compares the
flattened a-invariant keys. -/
def lexLeInt : List Int → List Int → Bool
  | [], _ => true
  | _ :: _, [] => false
  | a :: as, b :: bs => if a < b then true else if b < a then false else lexLeInt as bs

/-- The sort key of `_compute`: `(-E.cm_discriminant(), flattened ainvs)`
when the seed has rational CM, otherwise just the flattened a-invariants. -/
def sortKeyFn (O : Oracle C) (seedCM : Bool) : C → List Int :=
  if seedCM then fun c => (-(O.cmDisc c)) :: O.flatKey c else O.flatKey

/-- The sorting permutation of `_compute`:
`perm[ind] = self.curves.index(curves[ind])`, sending discovery indices to
sorted indices. -/
def permOf (orig sorted : List C) : ℕ → ℕ :=
  fun k => match orig.get? k with
    | some c => sorted.indexOf c
    | none => k

/-- Build the degree matrix from the recorded tuples under the sorting
permutation: `mat[perm[i], perm[j]] = l` for every tuple `(i,j,l,phi)`
with `phi != 0`.  The matrix is a total function, zero elsewhere. -/
def matFromTuples (pf : ℕ → ℕ) (tuples : List (Tup C)) : ℕ → ℕ → ℕ :=
  tuples.foldl
    (fun M t =>
      if t.phi.isSome then
        fun a b => if a = pf t.i ∧ b = pf t.j then t.deg else M a b
      else M)
    (fun _ _ => 0)

/-- Build the witness matrix `_maps` from the recorded tuples under the
sorting permutation. -/
def mapsFromTuples (pf : ℕ → ℕ) (tuples : List (Tup C)) :
    ℕ → ℕ → Option (Isogeny C) :=
  tuples.foldl
    (fun M t =>
      match t.phi with
      | some phi => fun a b => if a = pf t.i ∧ b = pf t.j then some phi else M a b
      | none => M)
    (fun _ _ => none)

/-- Combination of two candidate degrees in the matrix fill: `0` means "no
path known", otherwise keep the minimum. -/
def combineDeg (a b : ℕ) : ℕ :=
  if a = 0 then b else if b = 0 then a else min a b

/-- One pivot step of the min-product path closure used by the matrix
fill. -/
def fwStep (k : ℕ) (M : ℕ → ℕ → ℕ) : ℕ → ℕ → ℕ :=
  fun i j => combineDeg (M i j) (M i k * M k j)

/-- Iterate the pivot steps for all pivots `< k`. -/
def fwIter (M : ℕ → ℕ → ℕ) : ℕ → (ℕ → ℕ → ℕ)
  | 0 => M
  | k + 1 => fwStep k (fwIter M k)

/-- Modelled from the spec: `fill_isogeny_matrix` (implemented in
`ell_curve_isogeny.py`, outside the excerpt).  Given the matrix of
directly discovered prime degrees, put `1` on the diagonal and give every
connected pair the minimal product of degrees along a path of known
entries, leaving unreachable pairs at `0`. -/
def fill_isogeny_matrix (n : ℕ) (M : ℕ → ℕ → ℕ) : ℕ → ℕ → ℕ :=
  fwIter (fun i j => if i = j then 1 else M i j) n

/-- Modelled from the spec: `unfill_isogeny_matrix` (implemented in
`ell_curve_isogeny.py`, outside the excerpt), zeroing out every entry
that is not prime. -/
def unfill_isogeny_matrix (M : ℕ → ℕ → ℕ) : ℕ → ℕ → ℕ :=
  fun i j => if Nat.Prime (M i j) then M i j else 0

/-- Render the `n × n` corner of a matrix function as a list of rows. -/
def matToLists (n : ℕ) (M : ℕ → ℕ → ℕ) : List (List ℕ) :=
  (List.range n).map (fun i => (List.range n).map (fun j => M i j))

/-- The state of the `_qfmat` attribute: never assigned (the rational
code paths), assigned `None` (non-CM number-field classes), or the
computed array (CM classes). -/
inductive QfState where
  | unset
  | noneVal
  | val (m : List (List (List Int)))
deriving DecidableEq

/-- The data of an `IsogenyClass_EC` object: the seed curve `E`, the
curve list, the cached `_mat` and `_maps` (which start out `None` on
copies), the `_qfmat` state and the `_algorithm` string. -/
structure IsoClass (C : Type) where
  E : C
  curves : List C
  mat : Option (ℕ → ℕ → ℕ)
  maps : Option (ℕ → ℕ → Option (Isogeny C))
  qf : QfState
  algorithm : String

/-- `find_quadratic_form(d, n)` from `_compute`: the first reduced
primitive form of discriminant `d` that represents `n` (the `allQs`
dictionary is pure memoization and is dropped). -/
def find_quadratic_form (O : Oracle C) (d : Int) (n : ℕ) : Option QF :=
  (O.forms d).find? (fun q => q.solve n)

/-- One (unordered) entry of the CM post-pass of `_compute`: for `i < j`,
either keep the filled degree with a one-variable form, or, for a
horizontal pair (equal CM discriminants), replace the degree by the small
prime value of a form representing it. -/
def cmUpper (O : Oracle C) (sorted : List C) (M : ℕ → ℕ → ℕ) (i j : ℕ) :
    Except String (ℕ × List Int) :=
  match sorted.get? i, sorted.get? j with
  | some E1, some E2 =>
      if O.cmDisc E1 ≠ O.cmDisc E2 then .ok (M i j, [(M i j : Int)])
      else
        match find_quadratic_form O (O.cmDisc E1) (M i j) with
        | some q => .ok (q.spv, q.coeffs)
        | none => .error "No form of the discriminant represents the degree"
  | _, _ => .error "curve index out of range"

/-- One entry of the CM post-pass table: the diagonal keeps the degree
with form `[1]`, and lower entries copy the upper ones
(`qfmat[i][j] = qfmat[j][i]`, `mat[i,j] = mat[j,i]`). -/
def cmEntry (O : Oracle C) (sorted : List C) (M : ℕ → ℕ → ℕ) (i j : ℕ) :
    Except String (ℕ × List Int) :=
  if i = j then .ok (M i i, [1])
  else if i < j then cmUpper O sorted M i j
  else cmUpper O sorted M j i

/-- Effectful map over a list, failing at the first error, as the
`for i ... for j ...` loop of the CM post-pass does. -/
def exceptMap {α : Type _} {β : Type _} (g : α → Except String β) :
    List α → Except String (List β)
  | [] => .ok []
  | x :: xs =>
      match g x with
      | .error e => .error e
      | .ok y =>
          match exceptMap g xs with
          | .error e => .error e
          | .ok ys => .ok (y :: ys)

/-- The full table built by the CM post-pass. -/
def cmTable (O : Oracle C) (sorted : List C) (M : ℕ → ℕ → ℕ) (n : ℕ) :
    Except String (List (List (ℕ × List Int))) :=
  exceptMap (fun i => exceptMap (fun j => cmEntry O sorted M i j)
    (List.range n)) (List.range n)

/-- The degree matrix after the CM post-pass, read off the table inside
the `n × n` square and left as the filled matrix outside it. -/
def cmMat (M : ℕ → ℕ → ℕ) (table : List (List (ℕ × List Int))) : ℕ → ℕ → ℕ :=
  fun a b => (((table.get? a).bind (fun row => row.get? b)).map Prod.fst).getD (M a b)

/-- The quadratic-form array read off the CM table. -/
def qfmatOf (table : List (List (ℕ × List Int))) : List (List (List Int)) :=
  table.map (List.map (fun e => e.2))

/-- The comparison of two curves by the canonical sort key of
`_compute`, for a class whose (semi-minimal) seed is `E`. -/
def nfKey (O : Oracle C) (E : C) (a b : C) : Bool :=
  lexLeInt (sortKeyFn O (O.hasRationalCM E) a) (sortKeyFn O (O.hasRationalCM E) b)

/-- The sorted curve list of `_compute`. -/
def nfSorted (O : Oracle C) (E : C) (s : St C) : List C :=
  sortBy (nfKey O E) s.curves

/-- The filled degree matrix of `_compute`, built from the recorded
tuples under the sorting permutation. -/
def nfFmat (O : Oracle C) (E : C) (s : St C) : ℕ → ℕ → ℕ :=
  fill_isogeny_matrix s.curves.length
    (matFromTuples (permOf s.curves (nfSorted O E s)) s.tuples)

/-- The witness matrix `_maps` of `_compute`. -/
def nfMaps (O : Oracle C) (E : C) (s : St C) : ℕ → ℕ → Option (Isogeny C) :=
  mapsFromTuples (permOf s.curves (nfSorted O E s)) s.tuples

/-- The tail of `IsogenyClass_EC_NumberField._compute` after the closure
loop: sort, build the matrices, and run the CM post-pass when the seed
has rational CM (otherwise `_qfmat = None`). -/
def nfAssemble (O : Oracle C) (E0 E : C) (alg : String) (s : St C) :
    Except String (IsoClass C) :=
  if O.hasRationalCM E then
    match cmTable O (nfSorted O E s) (nfFmat O E s) s.curves.length with
    | .ok table =>
        .ok ⟨E0, nfSorted O E s, some (cmMat (nfFmat O E s) table),
             some (nfMaps O E s), .val (qfmatOf table), alg⟩
    | .error e => .error e
  else
    .ok ⟨E0, nfSorted O E s, some (nfFmat O E s), some (nfMaps O E s),
         .noneVal, alg⟩

/-- `IsogenyClass_EC_NumberField._compute`, for seed `E0`, candidate
reducible primes `cands` (the `_reducible_primes`, precomputed by
`possible_isogeny_degrees` when not supplied) and algorithm string
`alg`: take the semi-global minimal model, run the first pass and the
completion loop, then sort and assemble the class. -/
def compute_nf (O : Oracle C) (E0 : C) (cands : List ℕ) (alg : String)
    (fuel : ℕ) : Except String (IsoClass C) :=
  match loop2 O (phase1 O (O.gmm E0) cands).degs fuel
      ⟨(phase1 O (O.gmm E0) cands).curves, (phase1 O (O.gmm E0) cands).tuples⟩ 1 with
  | none => .error "fuel exhausted"
  | some s => nfAssemble O E0 (O.gmm E0) alg s

/-- One step of the `'sage'` algorithm of
`IsogenyClass_EC_Rational._compute`: codomains are standard minimal
models, so membership is tested by equality (`curves.index(Edash)`); the
triple is always appended. -/
def ratStep (i : ℕ) (s : St C) (phi : Isogeny C) : St C :=
  match firstIdxP (fun c => c == phi.cod) s.curves with
  | some j => { s with tuples := s.tuples ++ [⟨i, j, phi.deg, some phi⟩] }
  | none =>
      { curves := s.curves ++ [phi.cod]
        tuples := s.tuples ++ [⟨i, s.curves.length, phi.deg, some phi⟩] }

/-- The degree restriction of `E.isogenies_prime_degree(l_list)`: with
`l_list = None` all reducible prime degrees are used. -/
def ratIsogsOf (O : Oracle C) (Ei : C) : Option (List ℕ) → List (Isogeny C)
  | none => O.isogs Ei
  | some L => isogsDeg O Ei L

/-- After the first curve is processed with `l_list = None`, `l_list`
becomes the set of degrees of its isogenies. -/
def ratNextL (isogs : List (Isogeny C)) : Option (List ℕ) → Option (List ℕ)
  | none => some ((isogs.map (fun phi => phi.deg)).dedup)
  | some L => some L

/-- The `while i < len(curves)` loop of the `'sage'` algorithm. -/
def ratLoop (O : Oracle C) : ℕ → St C → Option (List ℕ) → ℕ → Option (St C)
  | 0, s, _, i => if i < s.curves.length then none else some s
  | fuel + 1, s, lList, i =>
      match s.curves.get? i with
      | none => some s
      | some Ei =>
          ratLoop O fuel ((ratIsogsOf O Ei lList).foldl (ratStep i) s)
            (ratNextL (ratIsogsOf O Ei lList) lList) (i + 1)

/-- `IsogenyClass_EC_Rational._compute` with `algorithm='sage'`: seed the
curve list with the minimal model, close it under prime-degree
isogenies comparing codomains by equality, and store the (unfilled)
degree and witness matrices in discovery order.  `_qfmat` is never
assigned on this path. -/
def compute_rational (O : Oracle C) (E0 : C) (fuel : ℕ) : Option (IsoClass C) :=
  match ratLoop O fuel ⟨[O.mm E0], []⟩ none 0 with
  | none => none
  | some s =>
      some ⟨E0, s.curves, some (matFromTuples id s.tuples),
            some (mapsFromTuples id s.tuples), .unset, "sage"⟩

/-- The `matrix(fill)` accessor: fill the stored matrix when `fill=True`
and it is unfilled (diagonal entry `0`), unfill it when `fill=False` and
it is filled (diagonal entry `1`).  A class whose `_mat` is `None`
recomputes through an external call, which is out of the modelled
scope. -/
def matrixAcc (cls : IsoClass C) (fillFlag : Bool) : Option (ℕ → ℕ → ℕ) :=
  match cls.mat with
  | none => none
  | some M =>
      let n := cls.curves.length
      let M1 := if fillFlag && (M 0 0 == 0) then fill_isogeny_matrix n M else M
      let M2 := if !fillFlag && (M1 0 0 == 1) then unfill_isogeny_matrix M1 else M1
      some M2

/-- The `qf_matrix()` accessor: an unassigned `_qfmat` attribute raises
`AttributeError`; a stored `None` raises the "rational CM only"
`ValueError`; otherwise the array is returned. -/
def qf_matrix (cls : IsoClass C) : Except String (List (List (List Int))) :=
  match cls.qf with
  | .unset => .error "AttributeError"
  | .noneVal => .error "qf_matrix only defined for isogeny classes with rational CM"
  | .val m => .ok m

/-- The sorted list of a-invariants of the curves of a class, the datum
`__richcmp__` and `__hash__` both reduce a class to. -/
def sortedAinvs (O : Oracle C) (cls : IsoClass C) : List (List Int) :=
  sortBy lexLeInt (cls.curves.map O.ainvs)

/-- `__richcmp__` at `op = ==`: two classes are equal when the sorted
lists of a-invariants of their curves agree. -/
def richcmpEq (O : Oracle C) (a b : IsoClass C) : Bool :=
  sortedAinvs O a == sortedAinvs O b

/-- The ordering argument of `reorder`: `None`, a string, or an explicit
iterable of curves. -/
inductive ReorderArg (C : Type) where
  | null
  | str (s : String)
  | curveList (l : List C)

/-- The membership lookup of `reorder`: `self.curves.index(E)`, falling
back to `self.curves.index(E.minimal_model())`. -/
def lookupIdx (O : Oracle C) (curves : List C) (E : C) : Option ℕ :=
  match firstIdxP (fun c => c == E) curves with
  | some j => some j
  | none => firstIdxP (fun c => c == O.mm E) curves

/-- Look up every curve of the supplied ordering; `none` when some lookup
fails (the "order does not yield a permutation of curves" error). -/
def lookupIndices (O : Oracle C) (curves : List C) (l : List C) :
    Option (List ℕ) :=
  l.mapM (lookupIdx O curves)

/-- Validity test of the `SymmetricGroup(n)(perm)` construction: the
index vector must be a permutation of `0, ..., n-1`. -/
def isPermVec (p : List ℕ) (n : ℕ) : Bool :=
  p.length == n && (List.range n).all (fun k => p.contains k)

/-- Conjugation of the degree matrix by the lookup indices:
`cpy._mat = perm.matrix() * self._mat * (~perm).matrix()`, which places
the old entry `(p[a], p[b])` at the new position `(a, b)`. -/
def permuteMatL (p : List ℕ) (M : ℕ → ℕ → ℕ) : ℕ → ℕ → ℕ :=
  fun a b => M (p.getD a a) (p.getD b b)

/-- The matching permutation of the witness matrix `_maps`. -/
def permuteMapsL (p : List ℕ) (M : ℕ → ℕ → Option (Isogeny C)) :
    ℕ → ℕ → Option (Isogeny C) :=
  fun a b => M (p.getD a a) (p.getD b b)

/-- The `'lmfdb'` ordering: sort the curves lexicographically by
a-invariants. -/
def lmfdbSort (O : Oracle C) (curves : List C) : List C :=
  sortBy (fun a b => lexLeInt (O.ainvs a) (O.ainvs b)) curves

/-- `copy()` as `reorder` uses it: the curve list (and, through the
deterministic reconstruction, the seed, algorithm and `_qfmat` data) is
kept while `_mat` and `_maps` are reset to `None`. -/
def copyClass (cls : IsoClass C) : IsoClass C :=
  { cls with mat := none, maps := none }

/-- The validation and permutation core of `reorder`, applied to the
reordered curve list produced by any of its branches: look up every
curve, permute the curve list, and, when `_mat` was present
(`need_perm`), check the index vector is a permutation and conjugate
`_mat` and `_maps`; when `_mat` was absent, reset `_mat` and `_maps` on
the copy without any permutation check. -/
def reorderCoreAux (O : Oracle C) (cls : IsoClass C) :
    Option (List ℕ) → Option (ℕ → ℕ → ℕ) → Except String (Bool × IsoClass C)
  | none, _ => .error "order does not yield a permutation of curves"
  | some p, some M =>
      if isPermVec p cls.curves.length then
        .ok (false, { copyClass cls with
                        curves := p.map (fun j => (cls.curves.get? j).getD cls.E)
                        mat := some (permuteMatL p M)
                        maps := cls.maps.map (permuteMapsL p) })
      else .error "invalid permutation"
  | some p, none =>
      .ok (false, { copyClass cls with
                      curves := p.map (fun j => (cls.curves.get? j).getD cls.E) })

def reorderCore (O : Oracle C) (cls : IsoClass C) (reordered : List C) :
    Except String (Bool × IsoClass C) :=
  reorderCoreAux O cls (lookupIndices O cls.curves reordered) cls.mat

/-- The reordered curve list produced by the branch of `reorder` that
applies: the lmfdb sort, the external recomputation
`self.E.isogeny_class(algorithm=order)` (modelled by `algClass`), or the
explicit list. -/
def reorderedList (O : Oracle C) (algClass : String → List C)
    (cls : IsoClass C) : ReorderArg C → List C
  | .null => cls.curves
  | .str s => if s = "lmfdb" then lmfdbSort O cls.curves else algClass s
  | .curveList l => l

/-- `IsogenyClass_EC.reorder(order)`.  The boolean of the result records
whether the very object `self` was returned (the `order is None` and
`order == self._algorithm` early exits) rather than a fresh copy.
`algClass s` models the external call
`self.E.isogeny_class(algorithm=order)`. -/
def reorder (O : Oracle C) (algClass : String → List C) (cls : IsoClass C) :
    ReorderArg C → Except String (Bool × IsoClass C)
  | .null => .ok (true, cls)
  | .str s =>
      if s = cls.algorithm then .ok (true, cls)
      else reorderCore O cls (reorderedList O algClass cls (.str s))
  | .curveList l =>
      if l.length ≠ cls.curves.length then .error "Incorrect length"
      else reorderCore O cls (reorderedList O algClass cls (.curveList l))

/-- `n.divisors()`. -/
def divisorsList (n : ℕ) : List ℕ :=
  (List.range (n + 1)).filter (fun k => 0 < k && n % k == 0)

/-- Primality by trial division (the external `is_prime`). -/
def isPrimeB (p : ℕ) : Bool :=
  2 ≤ p && (List.range p).all (fun d => d < 2 || p % d != 0)

/-- The distinct prime factors of `m` in increasing order
(`prime_factors`). -/
def primeFactorsOf (m : ℕ) : List ℕ :=
  (List.range (m + 1)).filter (fun p => isPrimeB p && m % p == 0)

def oddPartAux : ℕ → ℕ → ℕ
  | 0, m => m
  | f + 1, m => if m % 2 == 0 && m != 0 then oddPartAux f (m / 2) else m

/-- The odd part of a natural number. -/
def oddPart (m : ℕ) : ℕ := oddPartAux m m

def multCountAux (l : ℕ) : ℕ → ℕ → ℕ
  | 0, _ => 0
  | f + 1, m =>
      if m % l == 0 && m != 0 && 1 < l then multCountAux l f (m / l) + 1 else 0

/-- The multiplicity of `l` in `m` (`d.valuation(l)` on the absolute
value). -/
def multCount (l m : ℕ) : ℕ := multCountAux l m m

/-- The Kronecker symbol `(a / p)` for `p` prime, the only shape in which
`isogeny_degrees_cm` invokes `kronecker_symbol`: the second-argument-two
rule at `p = 2`, and the Euler criterion at odd primes. -/
def kroneckerPrime (a : Int) (p : ℕ) : Int :=
  if p = 2 then
    let r := a.emod 8
    if r % 2 = 0 then 0 else if r = 1 || r = 7 then 1 else -1
  else
    let m := (a.emod p).toNat
    let e := (m ^ ((p - 1) / 2)) % p
    if e = 0 then 0 else if e = 1 then 1 else -1

/-- The external number-theoretic data `isogeny_degrees_cm` consumes for
one curve: the CM discriminant and flags, the absolute degree of the
base field, and the `pari.quadclassunit` output (class number and
class-group generator forms), plus the pointwise test of the external
`Frobenius_filter`. -/
structure CMOracle where
  hasCM : Bool
  hasRationalCM : Bool
  cmDisc : Int
  absDegree : ℕ
  classNumber : ℕ
  classGroupGens : List QF
  frobKeep : ℕ → Bool

/-- The candidate prime set assembled by `isogeny_degrees_cm` before the
Frobenius filter, as a sorted list: the initial primes, the vertical
(ramified, upward, downward split and inert) primes, and, in the
rational CM case, one prime represented by each class-group generator
form. -/
def cmCandidates (O : CMOracle) : List ℕ :=
  let d := O.cmDisc
  let n1 := O.absDegree * (if O.hasRationalCM then 1 else 2)
  let n2 := n1 * (if d = -4 then 2 else 1)
  let n := n2 * (if d = -3 then 3 else 1)
  let divs := divisorsList n
  let nOver2h := n / (2 * O.classNumber)
  let L0 : List ℕ := if d = -3 then [2, 3] else [2]
  let ram : List ℕ := primeFactorsOf (oddPart d.natAbs)
  let Lram : List ℕ :=
    if O.hasRationalCM then
      ram.filter (fun l => 1 < multCount l d.natAbs) ++
      ram.filter (fun l => nOver2h % l == 0)
    else ram
  let Lsplit : List ℕ :=
    (divs.filter (fun lm1 =>
        isPrimeB (lm1 + 1) && kroneckerPrime d (lm1 + 1) == 1)).map (· + 1)
  let Linert : List ℕ :=
    (divs.filter (fun lp1 =>
        isPrimeB (lp1 - 1) && kroneckerPrime d (lp1 - 1) == -1)).map (· - 1)
  let Lhoriz : List ℕ :=
    if O.hasRationalCM then O.classGroupGens.map (fun q => q.spv) else []
  sortBy (fun x y => decide (x ≤ y)) (L0 ++ Lram ++ Lsplit ++ Linert ++ Lhoriz).dedup

/-- `isogeny_degrees_cm(E)`: reject non-CM curves, then apply the
Frobenius filter to the sorted candidate set. -/
def isogeny_degrees_cm (O : CMOracle) : Except String (List ℕ) :=
  if O.hasCM then .ok ((cmCandidates O).filter O.frobKeep)
  else .error "possible_isogeny_degrees_cm requires E to be an elliptic curve with CM"

/-- `possible_isogeny_degrees(E)`: CM curves are dispatched to
`isogeny_degrees_cm`; the non-CM branches (Billerey, Larson, heuristic,
and the naive bound over the rationals) are external and supplied as
`nonCM`. -/
def possible_isogeny_degrees (O : CMOracle) (nonCM : List ℕ) :
    Except String (List ℕ) :=
  if O.hasCM then isogeny_degrees_cm O else .ok nonCM

/-! Concrete oracle instances.  Curves are represented by natural-number
labels; each oracle records the isogeny data of a concrete isogeny class
documented in the repository (doctests of `isogeny_class.py`), restricted
to the facts the external elliptic-curve library supplies. -/

/-- Decidable test whether the binary quadratic form `a x^2 + b x y +
c y^2` represents `n` (for the positive-definite forms used here a
solution has both coordinates bounded by `n`). -/
def bqfSolve (a b c : Int) (n : ℕ) : Bool :=
  decide (∃ x ∈ Finset.Icc (-(n : Int)) n, ∃ y ∈ Finset.Icc (-(n : Int)) n,
    a * x ^ 2 + b * x * y + c * y ^ 2 = n)

/-- The isogeny data of the Cremona class 11a, from the doctests: curve
`0` (11a1) has exactly two 5-isogenies, to `1` (11a2) and `2` (11a3),
each of which has the dual back to 11a1. -/
def isogs11 : ℕ → List (Isogeny ℕ)
  | 0 => [⟨0, 1, 5⟩, ⟨0, 2, 5⟩]
  | 1 => [⟨1, 0, 5⟩]
  | 2 => [⟨2, 0, 5⟩]
  | _ => []

/-- The a-invariants of 11a1, 11a2, 11a3 (standard minimal models). -/
def ainvs11 : ℕ → List Int
  | 0 => [0, -1, 1, -10, -20]
  | 1 => [0, -1, 1, -7820, -263580]
  | 2 => [0, -1, 1, 0, 0]
  | _ => []

/-- The external-library oracle for the class 11a over the rationals. -/
def O11 : Oracle ℕ :=
  { iso := fun a b => a == b
    isogs := isogs11
    hasRationalCM := fun _ => false
    cmDisc := fun _ => 0
    flatKey := ainvs11
    ainvs := ainvs11
    gmm := id
    mm := id
    forms := fun _ => [] }

/-- The isogeny data of the Cremona class 15a in discovery order from
seed 15a3 (label `0`), matching the `matrix(fill=False)` doctest: a tree
of 2-isogenies with edges 0-1, 0-2, 0-3, 3-4, 3-5, 5-6, 5-7. -/
def isogs15 : ℕ → List (Isogeny ℕ)
  | 0 => [⟨0, 1, 2⟩, ⟨0, 2, 2⟩, ⟨0, 3, 2⟩]
  | 1 => [⟨1, 0, 2⟩]
  | 2 => [⟨2, 0, 2⟩]
  | 3 => [⟨3, 0, 2⟩, ⟨3, 4, 2⟩, ⟨3, 5, 2⟩]
  | 4 => [⟨4, 3, 2⟩]
  | 5 => [⟨5, 3, 2⟩, ⟨5, 6, 2⟩, ⟨5, 7, 2⟩]
  | 6 => [⟨6, 5, 2⟩]
  | 7 => [⟨7, 5, 2⟩]
  | _ => []

/-- The external-library oracle for the class 15a over the rationals. -/
def O15 : Oracle ℕ :=
  { iso := fun a b => a == b
    isogs := isogs15
    hasRationalCM := fun _ => false
    cmDisc := fun _ => 0
    flatKey := fun c => [(c : Int)]
    ainvs := fun c => [(c : Int)]
    gmm := id
    mm := id
    forms := fun _ => [] }

/-- A two-curve number-field class mirroring the documented example over
`QQ(i)` restricted to one 3-isogeny pair: label `0` is the seed
`y^2 = x^3 + 1` (flattened a-invariants ending in `1`) and label `1` is
`y^2 = x^3 - 27` (ending in `-27`), which sorts first. -/
def isogsT : ℕ → List (Isogeny ℕ)
  | 0 => [⟨0, 1, 3⟩]
  | 1 => [⟨1, 0, 3⟩]
  | _ => []

/-- The external-library oracle for the two-curve non-CM toy class. -/
def OT : Oracle ℕ :=
  { iso := fun a b => a == b
    isogs := isogsT
    hasRationalCM := fun _ => false
    cmDisc := fun _ => 0
    flatKey := fun c => if c = 0 then [0, 0, 0, 0, 1] else [0, 0, 0, 0, -27]
    ainvs := fun c => if c = 0 then [0, 0, 0, 0, 1] else [0, 0, 0, 0, -27]
    gmm := id
    mm := id
    forms := fun _ => [] }

/-- The principal reduced form of discriminant `-20`. -/
def qfPrincipal20 : QF := ⟨[1, 0, 5], bqfSolve 1 0 5, 5⟩

/-- The non-principal reduced form of discriminant `-20`. -/
def qfOther20 : QF := ⟨[2, 2, 3], bqfSolve 2 2 3, 2⟩

/-- The isogeny data of the documented two-curve CM class with
discriminant `-20` (the `j = 1480640 + 565760 c^2` example): one
2-isogeny pair of curves sharing the CM discriminant. -/
def isogsCM : ℕ → List (Isogeny ℕ)
  | 0 => [⟨0, 1, 2⟩]
  | 1 => [⟨1, 0, 2⟩]
  | _ => []

/-- The external-library oracle for the two-curve CM class. -/
def OCM : Oracle ℕ :=
  { iso := fun a b => a == b
    isogs := isogsCM
    hasRationalCM := fun _ => true
    cmDisc := fun _ => -20
    flatKey := fun c => [(c : Int)]
    ainvs := fun c => [(c : Int)]
    gmm := id
    mm := id
    forms := fun d => if d = -20 then [qfPrincipal20, qfOther20] else [] }

/-- The generator of the class group of discriminant `-23` returned by
`pari.quadclassunit` (class number 3, generator form `[2, 1, 3]` whose
smallest prime value is 2). -/
def qfGen23 : QF := ⟨[2, 1, 3], bqfSolve 2 1 3, 2⟩

/-- The CM oracle of the documented discriminant `-23` example: a curve
with rational CM by the maximal order of discriminant `-23` over a
sextic field; the Frobenius filter keeps 2 and 3 and rejects 5, per the
doctest. -/
def O23 : CMOracle :=
  { hasCM := true
    hasRationalCM := true
    cmDisc := -23
    absDegree := 6
    classNumber := 3
    classGroupGens := [qfGen23]
    frobKeep := fun l => l == 2 || l == 3 }

/-! Basic lemmas about the helper functions. -/

theorem firstIdxP_eq_none {p : C → Bool} {l : List C} :
    firstIdxP p l = none ↔ ∀ c ∈ l, p c = false := by
  induction l with
  | nil => simp [firstIdxP]
  | cons a l ih =>
      cases hpa : p a with
      | true =>
          simp only [firstIdxP, hpa, if_true]
          constructor
          · intro h; cases h
          · intro h
            have h2 := h a (List.mem_cons_self _ _)
            rw [hpa] at h2; cases h2
      | false =>
          simp only [firstIdxP, hpa, Bool.false_eq_true, if_false,
            Option.map_eq_none', ih, List.mem_cons]
          constructor
          · rintro h c (rfl | hc)
            · exact hpa
            · exact h c hc
          · intro h c hc; exact h c (Or.inr hc)

theorem firstIdxP_eq_some {p : C → Bool} {l : List C} {j : ℕ}
    (h : firstIdxP p l = some j) : ∃ c, l.get? j = some c ∧ p c = true := by
  induction l generalizing j with
  | nil => cases h
  | cons a l ih =>
      cases hpa : p a with
      | true =>
          simp only [firstIdxP, hpa, if_true] at h
          cases h
          exact ⟨a, rfl, hpa⟩
      | false =>
          simp only [firstIdxP, hpa, Bool.false_eq_true, if_false,
            Option.map_eq_some'] at h
          obtain ⟨j0, hj0, rfl⟩ := h
          obtain ⟨c, hc, hpc⟩ := ih hj0
          exact ⟨c, by simpa using hc, hpc⟩

theorem foldl_inv {α β : Type _} {f : β → α → β} {l : List α} {I : β → Prop}
    (step : ∀ s x, x ∈ l → I s → I (f s x)) :
    ∀ s, I s → I (l.foldl f s) := by
  induction l with
  | nil => intro s h; exact h
  | cons a l ih =>
      intro s h
      exact ih (fun s x hx => step s x (List.mem_cons_of_mem _ hx)) (f s a)
        (step s a (List.mem_cons_self _ _) h)

theorem foldl_inv_forall {α β : Type _} {f : β → α → β} {l : List α}
    {I : β → Prop} {Q : α → β → Prop}
    (hpres : ∀ s x, x ∈ l → I s → I (f s x))
    (hest : ∀ s x, x ∈ l → I s → Q x (f s x))
    (hmono : ∀ s x y, y ∈ l → Q x s → Q x (f s y)) :
    ∀ s, I s → ∀ x ∈ l, Q x (l.foldl f s) := by
  induction l with
  | nil => intro s _ x hx; cases hx
  | cons a l ih =>
      intro s hs x hx
      rcases List.mem_cons.mp hx with rfl | hx2
      · have h1 : Q x (f s x) := hest s x (List.mem_cons_self _ _) hs
        exact foldl_inv
          (fun s2 y hy hq => hmono s2 x y (List.mem_cons_of_mem _ hy) hq)
          (f s x) h1
      · exact ih
          (fun s2 y hy => hpres s2 y (List.mem_cons_of_mem _ hy))
          (fun s2 y hy => hest s2 y (List.mem_cons_of_mem _ hy))
          (fun s2 y z hz => hmono s2 y z (List.mem_cons_of_mem _ hz))
          (f s a) (hpres s a (List.mem_cons_self _ _) hs) x hx2

theorem prefix_get? {l l2 : List C} (h : l <+: l2) {k : ℕ} {a : C}
    (ha : l.get? k = some a) : l2.get? k = some a := by
  obtain ⟨t, rfl⟩ := h
  have hk : k < l.length := by
    by_contra hk
    rw [List.get?_eq_none.mpr (Nat.le_of_not_lt hk)] at ha
    cases ha
  rw [List.get?_append hk]
  exact ha

theorem insertSorted_perm (le : C → C → Bool) (a : C) (l : List C) :
    (insertSorted le a l).Perm (a :: l) := by
  induction l with
  | nil => exact List.Perm.refl _
  | cons b l ih =>
      unfold insertSorted
      by_cases h : le a b
      · simp [h]
      · simp only [h, if_false]
        exact (ih.cons b).trans (List.Perm.swap a b l)

theorem sortBy_perm (le : C → C → Bool) (l : List C) : (sortBy le l).Perm l := by
  induction l with
  | nil => exact List.Perm.refl _
  | cons a l ih =>
      exact (insertSorted_perm le a (sortBy le l)).trans (ih.cons a)

/-! Invariants of the number-field closure. -/

/-- No two entries of the list are isomorphic. -/
def PairwiseNonIso (O : Oracle C) (l : List C) : Prop :=
  List.Pairwise (fun a b => O.iso a b = false) l

theorem pairwiseNonIso_append {O : Oracle C} {l : List C} {c : C}
    (isoSymm : ∀ a b, O.iso a b = O.iso b a)
    (h : PairwiseNonIso O l) (hc : ∀ b ∈ l, O.iso c b = false) :
    PairwiseNonIso O (l ++ [c]) := by
  apply List.pairwise_append.mpr
  refine ⟨h, List.pairwise_singleton _ _, ?_⟩
  intro a ha b hb
  rw [List.mem_singleton] at hb
  subst hb
  rw [isoSymm]
  exact hc a ha

theorem p1step_pairwise {O : Oracle C}
    (isoSymm : ∀ a b, O.iso a b = O.iso b a) {s : St1 C} {phi : Isogeny C}
    (h : PairwiseNonIso O s.curves) :
    PairwiseNonIso O (p1step O s phi).curves := by
  unfold p1step
  by_cases hany : s.curves.any (fun E3 => O.iso phi.cod E3) = true
  · simpa [hany] using h
  · simp only [hany, Bool.false_eq_true, if_false]
    apply pairwiseNonIso_append isoSymm h
    intro b hb
    by_contra hbt
    exact hany (List.any_eq_true.mpr ⟨b, hb, by
      cases hib : O.iso phi.cod b with
      | true => rfl
      | false => exact absurd hib hbt⟩)

theorem p2step_pairwise {O : Oracle C}
    (isoSymm : ∀ a b, O.iso a b = O.iso b a) {i : ℕ} {s : St C}
    {phi : Isogeny C} (h : PairwiseNonIso O s.curves) :
    PairwiseNonIso O (p2step O i s phi).curves := by
  unfold p2step
  cases hidx : firstIdxP (fun E3 => O.iso phi.cod E3) s.curves with
  | some j => exact h
  | none =>
      apply pairwiseNonIso_append isoSymm h
      exact firstIdxP_eq_none.mp hidx

theorem processCurve_pairwise {O : Oracle C}
    (isoSymm : ∀ a b, O.iso a b = O.iso b a) {degs : List ℕ} {s : St C}
    {i : ℕ} (h : PairwiseNonIso O s.curves) :
    PairwiseNonIso O (processCurve O degs s i).curves := by
  unfold processCurve
  cases s.curves.get? i with
  | none => exact h
  | some Ei =>
      exact foldl_inv (I := fun s2 => PairwiseNonIso O s2.curves)
        (fun s2 x _ h2 => p2step_pairwise isoSymm h2) s h

theorem loop2_pairwise {O : Oracle C}
    (isoSymm : ∀ a b, O.iso a b = O.iso b a) {degs : List ℕ} :
    ∀ fuel (s : St C) i s2, loop2 O degs fuel s i = some s2 →
      PairwiseNonIso O s.curves → PairwiseNonIso O s2.curves := by
  intro fuel
  induction fuel with
  | zero =>
      intro s i s2 h hp
      unfold loop2 at h
      by_cases hi : i < s.curves.length
      · simp [hi] at h
      · simp only [hi, if_false] at h
        cases h
        exact hp
  | succ fuel ih =>
      intro s i s2 h hp
      unfold loop2 at h
      by_cases hi : i < s.curves.length
      · simp only [hi, if_true] at h
        exact ih _ _ _ h (processCurve_pairwise isoSymm hp)
      · simp only [hi, if_false] at h
        cases h
        exact hp

theorem phase1_pairwise {O : Oracle C}
    (isoSymm : ∀ a b, O.iso a b = O.iso b a) {E : C} {cands : List ℕ} :
    PairwiseNonIso O (phase1 O E cands).curves := by
  unfold phase1
  exact foldl_inv (I := fun s2 : St1 C => PairwiseNonIso O s2.curves)
    (fun s2 x _ h2 => p1step_pairwise isoSymm h2) ⟨[E], [], []⟩
    (List.pairwise_singleton _ _)

/-- Inversion of `compute_nf`: the components a successful run is built
from. -/
theorem compute_nf_ok {O : Oracle C} {E0 : C} {cands : List ℕ}
    {alg : String} {fuel : ℕ} {cls : IsoClass C}
    (h : compute_nf O E0 cands alg fuel = .ok cls) :
    ∃ s : St C,
      loop2 O (phase1 O (O.gmm E0) cands).degs fuel
          ⟨(phase1 O (O.gmm E0) cands).curves, (phase1 O (O.gmm E0) cands).tuples⟩ 1
        = some s ∧
      cls.curves = nfSorted O (O.gmm E0) s ∧
      cls.E = E0 ∧
      ((O.hasRationalCM (O.gmm E0) = false ∧
          cls.mat = some (nfFmat O (O.gmm E0) s) ∧ cls.qf = .noneVal) ∨
       (O.hasRationalCM (O.gmm E0) = true ∧
          ∃ table, cmTable O (nfSorted O (O.gmm E0) s) (nfFmat O (O.gmm E0) s)
              s.curves.length = .ok table ∧
            cls.mat = some (cmMat (nfFmat O (O.gmm E0) s) table) ∧
            cls.qf = .val (qfmatOf table))) := by
  unfold compute_nf at h
  cases hloop : loop2 O (phase1 O (O.gmm E0) cands).degs fuel
      ⟨(phase1 O (O.gmm E0) cands).curves, (phase1 O (O.gmm E0) cands).tuples⟩ 1 with
  | none => rw [hloop] at h; cases h
  | some s =>
      rw [hloop] at h
      refine ⟨s, rfl, ?_⟩
      unfold nfAssemble at h
      cases hcm : O.hasRationalCM (O.gmm E0) with
      | false =>
          rw [hcm] at h
          simp only [Bool.false_eq_true, if_false] at h
          cases h
          exact ⟨rfl, rfl, Or.inl ⟨rfl, rfl, rfl⟩⟩
      | true =>
          rw [hcm] at h
          simp only [if_true] at h
          cases htab : cmTable O (nfSorted O (O.gmm E0) s) (nfFmat O (O.gmm E0) s)
              s.curves.length with
          | error e => rw [htab] at h; cases h
          | ok table =>
              rw [htab] at h
              cases h
              exact ⟨rfl, rfl, Or.inr ⟨rfl, table, rfl, rfl, rfl⟩⟩


/-! Prefix and monotonicity lemmas for the closure loops. -/

theorem p1step_prefix {O : Oracle C} {s : St1 C} {phi : Isogeny C} :
    s.curves <+: (p1step O s phi).curves := by
  unfold p1step
  by_cases hany : s.curves.any (fun E3 => O.iso phi.cod E3) = true
  · simp [hany]
  · simp only [hany, Bool.false_eq_true, if_false]
    exact ⟨[phi.cod], rfl⟩

theorem p2step_prefix {O : Oracle C} {i : ℕ} {s : St C} {phi : Isogeny C} :
    s.curves <+: (p2step O i s phi).curves := by
  unfold p2step
  cases firstIdxP (fun E3 => O.iso phi.cod E3) s.curves with
  | some j => exact List.prefix_refl _
  | none => exact ⟨[phi.cod], rfl⟩

theorem processCurve_prefix {O : Oracle C} {degs : List ℕ} {s : St C} {i : ℕ} :
    s.curves <+: (processCurve O degs s i).curves := by
  unfold processCurve
  cases s.curves.get? i with
  | none => exact List.prefix_refl _
  | some Ei =>
      exact foldl_inv (I := fun s2 : St C => s.curves <+: s2.curves)
        (fun s2 x _ h2 => h2.trans p2step_prefix) s (List.prefix_refl _)

theorem loop2_prefix {O : Oracle C} {degs : List ℕ} :
    ∀ fuel (s : St C) i s2, loop2 O degs fuel s i = some s2 →
      s.curves <+: s2.curves := by
  intro fuel
  induction fuel with
  | zero =>
      intro s i s2 h
      unfold loop2 at h
      by_cases hi : i < s.curves.length
      · simp [hi] at h
      · simp only [hi, if_false] at h; cases h; exact List.prefix_refl _
  | succ fuel ih =>
      intro s i s2 h
      unfold loop2 at h
      by_cases hi : i < s.curves.length
      · simp only [hi, if_true] at h
        exact List.IsPrefix.trans processCurve_prefix (ih _ _ _ h)
      · simp only [hi, if_false] at h; cases h; exact List.prefix_refl _

theorem phase1_prefix {O : Oracle C} {E : C} {cands : List ℕ} :
    [E] <+: (phase1 O E cands).curves := by
  unfold phase1
  exact foldl_inv (I := fun s2 : St1 C => [E] <+: s2.curves)
    (fun s2 x _ h2 => h2.trans p1step_prefix) ⟨[E], [], []⟩ (List.prefix_refl _)

/-! Invariants of the rational closure. -/

theorem ratStep_prefix {i : ℕ} {s : St C} {phi : Isogeny C} :
    s.curves <+: (ratStep i s phi).curves := by
  unfold ratStep
  cases firstIdxP (fun c => c == phi.cod) s.curves with
  | some j => exact List.prefix_refl _
  | none => exact ⟨[phi.cod], rfl⟩

/-- `ratStep` keeps the curve list duplicate-free and inside the class
`P` of standard minimal models when the new codomain is in `P`. -/
theorem ratStep_inv {P : C → Prop} {i : ℕ} {s : St C} {phi : Isogeny C}
    (hP : P phi.cod) (hnd : s.curves.Nodup) (hall : ∀ a ∈ s.curves, P a) :
    (ratStep i s phi).curves.Nodup ∧ ∀ a ∈ (ratStep i s phi).curves, P a := by
  unfold ratStep
  cases hidx : firstIdxP (fun c => c == phi.cod) s.curves with
  | some j => exact ⟨hnd, hall⟩
  | none =>
      have hnotmem : phi.cod ∉ s.curves := by
        intro hmem
        have := firstIdxP_eq_none.mp hidx phi.cod hmem
        rw [beq_self_eq_true] at this
        cases this
      constructor
      · rw [List.nodup_append]
        exact ⟨hnd, List.nodup_singleton _,
          by intro a ha hb; rw [List.mem_singleton] at hb; subst hb; exact hnotmem ha⟩
      · intro a ha
        rcases List.mem_append.mp ha with ha2 | ha2
        · exact hall a ha2
        · rw [List.mem_singleton] at ha2; subst ha2; exact hP

theorem ratLoop_inv {O : Oracle C} {P : C → Prop}
    (hPcod : ∀ c phi, phi ∈ O.isogs c → P phi.cod) :
    ∀ fuel (s : St C) lList i s2, ratLoop O fuel s lList i = some s2 →
      s.curves.Nodup → (∀ a ∈ s.curves, P a) →
      s2.curves.Nodup ∧ (∀ a ∈ s2.curves, P a) ∧ s.curves <+: s2.curves := by
  intro fuel
  induction fuel with
  | zero =>
      intro s lList i s2 h hnd hall
      unfold ratLoop at h
      by_cases hi : i < s.curves.length
      · simp [hi] at h
      · simp only [hi, if_false] at h; cases h
        exact ⟨hnd, hall, List.prefix_refl _⟩
  | succ fuel ih =>
      intro s lList i s2 h hnd hall
      unfold ratLoop at h
      cases hget : s.curves.get? i with
      | none =>
          rw [hget] at h; cases h
          exact ⟨hnd, hall, List.prefix_refl _⟩
      | some Ei =>
          rw [hget] at h
          have hsub : ∀ phi ∈ ratIsogsOf O Ei lList, P phi.cod := by
            intro phi hphi
            cases lList with
            | none => exact hPcod Ei phi hphi
            | some L => exact hPcod Ei phi (List.mem_filter.mp hphi).1
          have hfold := foldl_inv
            (f := ratStep i) (l := ratIsogsOf O Ei lList)
            (I := fun s2 : St C =>
              (s2.curves.Nodup ∧ ∀ a ∈ s2.curves, P a) ∧ s.curves <+: s2.curves)
            (fun s2 x hx h2 =>
              ⟨ratStep_inv (i := i) (hsub x hx) h2.1.1 h2.1.2,
               h2.2.trans ratStep_prefix⟩)
            s ⟨⟨hnd, hall⟩, List.prefix_refl _⟩
          obtain ⟨h2, h3, h4⟩ := ih _ _ _ _ h hfold.1.1 hfold.1.2
          exact ⟨h2, h3, hfold.2.trans h4⟩

/-- Inversion of `compute_rational`. -/
theorem compute_rational_ok {O : Oracle C} {E0 : C} {fuel : ℕ}
    {cls : IsoClass C} (h : compute_rational O E0 fuel = some cls) :
    ∃ s : St C, ratLoop O fuel ⟨[O.mm E0], []⟩ none 0 = some s ∧
      cls.curves = s.curves ∧ cls.E = E0 ∧
      cls.mat = some (matFromTuples id s.tuples) ∧
      cls.maps = some (mapsFromTuples id s.tuples) ∧ cls.qf = .unset := by
  unfold compute_rational at h
  cases hloop : ratLoop O fuel ⟨[O.mm E0], []⟩ none 0 with
  | none => rw [hloop] at h; cases h
  | some s =>
      rw [hloop] at h
      cases h
      exact ⟨s, rfl, rfl, rfl, rfl, rfl, rfl⟩


/-! Conversion from pairwise non-isomorphism to the two-sided indexed
statement. -/

theorem get?_lt_length {l : List C} {k : ℕ} {a : C} (h : l.get? k = some a) :
    k < l.length := by
  by_contra hk
  rw [List.get?_eq_none.mpr (Nat.le_of_not_lt hk)] at h
  cases h

theorem pairwise_get_false {O : Oracle C} {l : List C}
    (isoSymm : ∀ a b, O.iso a b = O.iso b a)
    (h : PairwiseNonIso O l) {i j : ℕ} {a b : C} (hij : i ≠ j)
    (ha : l.get? i = some a) (hb : l.get? j = some b) : O.iso a b = false := by
  have hi : i < l.length := get?_lt_length ha
  have hj : j < l.length := get?_lt_length hb
  obtain ⟨hi2, ha2⟩ := List.get?_eq_some.mp ha
  obtain ⟨hj2, hb2⟩ := List.get?_eq_some.mp hb
  rcases Nat.lt_or_ge i j with hlt | hge
  · have := List.pairwise_iff_get.mp h ⟨i, hi⟩ ⟨j, hj⟩ hlt
    rwa [ha2, hb2] at this
  · have hlt2 : j < i := Nat.lt_of_le_of_ne hge (Ne.symm hij)
    have := List.pairwise_iff_get.mp h ⟨j, hj⟩ ⟨i, hi⟩ hlt2
    rw [ha2, hb2] at this
    rw [isoSymm]
    exact this

theorem beq_symm_dec {a b : C} : (a == b) = (b == a) := by
  by_cases h : a = b
  · subst h; rfl
  · rw [beq_eq_false_iff_ne.mpr h, beq_eq_false_iff_ne.mpr (Ne.symm h)]

/-- C1, the number-field half: the computed curve list is pairwise
non-isomorphic, given that `is_isomorphic` is symmetric. -/
theorem nf_curves_pairwiseNonIso {O : Oracle C}
    (isoSymm : ∀ a b, O.iso a b = O.iso b a)
    {E0 : C} {cands : List ℕ} {alg : String} {fuel : ℕ} {cls : IsoClass C}
    (hnf : compute_nf O E0 cands alg fuel = .ok cls) :
    PairwiseNonIso O cls.curves := by
  obtain ⟨s, hloop, hcurves, -, -⟩ := compute_nf_ok hnf
  have hp : PairwiseNonIso O s.curves :=
    loop2_pairwise isoSymm _ _ _ _ hloop (phase1_pairwise isoSymm)
  have hperm : cls.curves.Perm s.curves := by
    rw [hcurves]
    exact sortBy_perm _ _
  exact (List.Perm.pairwise_iff
    (fun hxy => by rw [isoSymm]; exact hxy) hperm.symm).mp hp


/-- C1: for every computed isogeny class, no two entries of `curves` are
isomorphic to each other (for all `i != j`,
`curves[i].is_isomorphic(curves[j])` is false), both for the
number-field closure (which scans existing curves with `is_isomorphic`
before appending a codomain) and for the rational `'sage'` algorithm
(which compares codomains, standard minimal models, by equality before
appending).  The external library is assumed to have a symmetric
isomorphism test and, over the rationals, to return standard minimal
models on which isomorphism coincides with equality. -/
theorem C1_curves_pairwise_nonisomorphic
    {D : Type} [DecidableEq D]
    (O : Oracle C) (Orat : Oracle D)
    (isoSymm : ∀ a b, O.iso a b = O.iso b a)
    (E0 : C) (cands : List ℕ) (alg : String) (fuel : ℕ) (cls : IsoClass C)
    (hnf : compute_nf O E0 cands alg fuel = .ok cls)
    (P : D → Prop) (F0 : D) (fuelR : ℕ) (clsR : IsoClass D)
    (hPmm : P (Orat.mm F0))
    (hPcod : ∀ c phi, phi ∈ Orat.isogs c → P phi.cod)
    (hPiso : ∀ a b, P a → P b → Orat.iso a b = true → a = b)
    (hrat : compute_rational Orat F0 fuelR = some clsR) :
    (∀ i j a b, i ≠ j → cls.curves.get? i = some a →
        cls.curves.get? j = some b → O.iso a b = false) ∧
    (∀ i j a b, i ≠ j → clsR.curves.get? i = some a →
        clsR.curves.get? j = some b → Orat.iso a b = false) := by
  constructor
  · intro i j a b hij ha hb
    exact pairwise_get_false isoSymm (nf_curves_pairwiseNonIso isoSymm hnf) hij ha hb
  · obtain ⟨s, hloop, hcurves, -, -, -, -⟩ := compute_rational_ok hrat
    have hinv := ratLoop_inv hPcod fuelR ⟨[Orat.mm F0], []⟩ none 0 s hloop
      (List.nodup_singleton _)
      (by intro a ha; rw [List.mem_singleton] at ha; subst ha; exact hPmm)
    intro i j a b hij ha hb
    rw [hcurves] at ha hb
    have hmema := hinv.2.1 a (List.get?_mem ha)
    have hmemb := hinv.2.1 b (List.get?_mem hb)
    cases hab : Orat.iso a b with
    | false => rfl
    | true =>
        exfalso
        have hab2 : a = b := hPiso a b hmema hmemb hab
        subst hab2
        obtain ⟨hi1, hi2⟩ := List.get?_eq_some.mp ha
        obtain ⟨hj1, hj2⟩ := List.get?_eq_some.mp hb
        have heq : s.curves.get ⟨i, hi1⟩ = s.curves.get ⟨j, hj1⟩ := by
          rw [hi2, hj2]
        have hfin := (List.nodup_iff_injective_get.mp hinv.1) heq
        exact hij (congrArg Fin.val hfin)

/-- C1 witness: the theorem applied to the toy number-field class and to
the class 11a over the rationals. -/
theorem C1_curves_pairwise_nonisomorphic_witness :
    ∃ (cls : IsoClass ℕ) (clsR : IsoClass ℕ),
      compute_nf OT 0 [3] "Billerey" 5 = .ok cls ∧
      compute_rational O11 0 10 = some clsR ∧
      ((∀ i j a b, i ≠ j → cls.curves.get? i = some a →
          cls.curves.get? j = some b → OT.iso a b = false) ∧
       (∀ i j a b, i ≠ j → clsR.curves.get? i = some a →
          clsR.curves.get? j = some b → O11.iso a b = false)) :=
  ⟨_, _, rfl, rfl,
    C1_curves_pairwise_nonisomorphic OT O11
      (fun a b => beq_symm_dec)
      0 [3] "Billerey" 5 _ rfl
      (fun _ => True) 0 10 _ trivial (fun _ _ _ => trivial)
      (fun a b _ _ h => by
        simp only [O11] at h
        exact eq_of_beq h) rfl⟩

/-- C3 counterexample: in the number-field closure of the documented
two-curve class over `QQ(i)`, after sorting by the canonical key the
first entry of `curves` is the curve with flattened a-invariants ending
in `-27`, which is not isomorphic to the (semi-minimal model of the)
input curve, label `0`. -/
theorem C3_counterexample :
    ∃ cls : IsoClass ℕ, compute_nf OT 0 [3] "Billerey" 5 = .ok cls ∧
      OT.gmm 0 = 0 ∧ cls.curves.get? 0 = some 1 ∧
      OT.iso 1 0 = false ∧ OT.iso 0 1 = false :=
  ⟨_, rfl, rfl, by decide, by decide, by decide⟩

/-- C3 amended: the rational `'sage'` algorithm seeds `curves[0]` with
the minimal model of the input curve and never reorders, so
`curves[0]` is the minimal model itself; the number-field closure sorts
`curves` by the canonical key, so the (semi-global) minimal model of the
input appears at some index of `curves`, but not necessarily at index
0. -/
theorem C3_amended_theorem
    {D : Type} [DecidableEq D] (O : Oracle C) (Orat : Oracle D)
    (E0 : C) (cands : List ℕ) (alg : String) (fuel : ℕ) (cls : IsoClass C)
    (hnf : compute_nf O E0 cands alg fuel = .ok cls)
    (F0 : D) (fuelR : ℕ) (clsR : IsoClass D)
    (hrat : compute_rational Orat F0 fuelR = some clsR) :
    clsR.curves.get? 0 = some (Orat.mm F0) ∧
    ∃ i, cls.curves.get? i = some (O.gmm E0) := by
  constructor
  · obtain ⟨s, hloop, hcurves, -, -, -, -⟩ := compute_rational_ok hrat
    have hpre := (ratLoop_inv (P := fun _ => True) (fun _ _ _ => trivial)
      fuelR _ none 0 s hloop (List.nodup_singleton _) (fun _ _ => trivial)).2.2
    rw [hcurves]
    exact prefix_get? hpre rfl
  · obtain ⟨s, hloop, hcurves, -, -⟩ := compute_nf_ok hnf
    have h1 : [O.gmm E0] <+: (phase1 O (O.gmm E0) cands).curves := phase1_prefix
    have h2 : (phase1 O (O.gmm E0) cands).curves <+: s.curves :=
      loop2_prefix fuel _ 1 s hloop
    have hmem : O.gmm E0 ∈ s.curves :=
      List.get?_mem (prefix_get? (h1.trans h2) (k := 0) rfl)
    have hmem2 : O.gmm E0 ∈ cls.curves := by
      rw [hcurves]
      exact ((sortBy_perm _ _).mem_iff).mpr hmem
    exact List.get?_of_mem hmem2

/-- C3 witness: the amended statement applied to the toy number-field
class and to the class 11a over the rationals. -/
theorem C3_amended_witness :
    ∃ (cls : IsoClass ℕ) (clsR : IsoClass ℕ),
      compute_nf OT 0 [3] "Billerey" 5 = .ok cls ∧
      compute_rational O11 0 10 = some clsR ∧
      (clsR.curves.get? 0 = some (O11.mm 0) ∧
       ∃ i, cls.curves.get? i = some (OT.gmm 0)) :=
  ⟨_, _, rfl, rfl,
    C3_amended_theorem OT O11 0 [3] "Billerey" 5 _ rfl 0 10 _ rfl⟩


/-- C6: for a computed number-field class, `qf_matrix()` raises the
"not a CM class" error exactly when the (semi-minimal model of the)
seed curve has no rational CM: without rational CM the stored `_qfmat`
is `None` and the accessor raises, and with rational CM the accessor
returns the computed array without error. -/
theorem C6_qf_matrix_error_iff_non_cm
    (O : Oracle C) (E0 : C) (cands : List ℕ) (alg : String) (fuel : ℕ)
    (cls : IsoClass C) (hnf : compute_nf O E0 cands alg fuel = .ok cls) :
    (O.hasRationalCM (O.gmm E0) = false →
      qf_matrix cls =
        .error "qf_matrix only defined for isogeny classes with rational CM") ∧
    (O.hasRationalCM (O.gmm E0) = true → ∃ m, qf_matrix cls = .ok m) := by
  obtain ⟨s, -, -, -, hdisj⟩ := compute_nf_ok hnf
  rcases hdisj with ⟨hcm, -, hqf⟩ | ⟨hcm, table, -, -, hqf⟩
  · constructor
    · intro _
      simp [qf_matrix, hqf]
    · intro h2
      rw [hcm] at h2
      cases h2
  · constructor
    · intro h2
      rw [hcm] at h2
      cases h2
    · intro _
      exact ⟨qfmatOf table, by simp [qf_matrix, hqf]⟩

/-- C6 witness: the theorem applied to the documented two-curve CM class
of discriminant `-20`, whose quadratic-form matrix is returned without
error. -/
theorem C6_qf_matrix_witness :
    ∃ cls : IsoClass ℕ, compute_nf OCM 0 [2] "Billerey" 5 = .ok cls ∧
      (OCM.hasRationalCM (OCM.gmm 0) = true → ∃ m, qf_matrix cls = .ok m) := by
  cases h : compute_nf OCM 0 [2] "Billerey" 5 with
  | error e =>
      exfalso
      have hok : (compute_nf OCM 0 [2] "Billerey" 5).isOk = true := by decide
      rw [h] at hok
      cases hok
  | ok cls =>
      exact ⟨cls, rfl, (C6_qf_matrix_error_iff_non_cm OCM 0 [2] "Billerey" 5 cls h).2⟩

/-- C7 counterexample: with seed 11a1 and its two rational 5-isogenies,
the `'sage'` algorithm computes an isogeny class of 3 curves (11a1,
11a2, 11a3), not 2, and its filled degree matrix is the 3 by 3 matrix
`[[1,5,5],[5,1,25],[5,25,1]]`, not `[[1,5],[5,1]]`. -/
theorem C7_counterexample :
    (compute_rational O11 0 10).map (fun cls => cls.curves.length) = some 3 ∧
    (compute_rational O11 0 10).map (fun cls => cls.curves.length) ≠ some 2 ∧
    (compute_rational O11 0 10).map
        (fun cls => (matrixAcc cls true).map (matToLists 3)) ≠
      some (some [[1, 5], [5, 1]]) :=
  ⟨by decide, by decide, by decide⟩

/-- C7 amended: with seed 11a1 and candidate degree set containing only
5, the computed class has exactly 3 curves; `matrix(fill=True)` is
`[[1,5,5],[5,1,25],[5,25,1]]` and `matrix(fill=False)` is
`[[0,5,5],[5,0,0],[5,0,0]]`. -/
theorem C7_amended_theorem :
    (compute_rational O11 0 10).map (fun cls => cls.curves.length) = some 3 ∧
    (compute_rational O11 0 10).map
        (fun cls => (matrixAcc cls true).map (matToLists 3)) =
      some (some [[1, 5, 5], [5, 1, 25], [5, 25, 1]]) ∧
    (compute_rational O11 0 10).map
        (fun cls => (matrixAcc cls false).map (matToLists 3)) =
      some (some [[0, 5, 5], [5, 0, 0], [5, 0, 0]]) :=
  ⟨by decide, by decide, by decide⟩

/-- C8 counterexample: on the class 15a the filled matrix has entries
equal to 16 (for instance at position (1, 6)), and 16 is its maximal
entry, so the maximum is not 8. -/
theorem C8_counterexample :
    (compute_rational O15 0 12).map
        (fun cls => (matrixAcc cls true).map (fun M => M 1 6)) =
      some (some 16) ∧
    (compute_rational O15 0 12).map
        (fun cls => (matrixAcc cls true).map (fun M =>
          ((matToLists 8 M).map (fun row => row.foldl max 0)).foldl max 0)) =
      some (some 16) ∧
    (16 : ℕ) ≠ 8 :=
  ⟨by decide, by decide, by decide⟩

/-- C8 amended: the class of 15a3 has exactly 8 curves;
`matrix(fill=False)` contains only zero and prime entries (it is the
documented tree of 2-isogenies); `matrix(fill=True)` is the documented
8 by 8 matrix, which contains entries 2 and 4 and has maximal entry
16. -/
theorem C8_amended_theorem :
    (compute_rational O15 0 12).map (fun cls => cls.curves.length) = some 8 ∧
    (compute_rational O15 0 12).map
        (fun cls => (matrixAcc cls false).map (matToLists 8)) =
      some (some [[0,2,2,2,0,0,0,0],[2,0,0,0,0,0,0,0],[2,0,0,0,0,0,0,0],
                  [2,0,0,0,2,2,0,0],[0,0,0,2,0,0,0,0],[0,0,0,2,0,0,2,2],
                  [0,0,0,0,0,2,0,0],[0,0,0,0,0,2,0,0]]) ∧
    (compute_rational O15 0 12).map
        (fun cls => (matrixAcc cls false).map (fun M =>
          (matToLists 8 M).all (fun row => row.all (fun e =>
            e == 0 || decide (Nat.Prime e))))) =
      some (some true) ∧
    (compute_rational O15 0 12).map
        (fun cls => (matrixAcc cls true).map (matToLists 8)) =
      some (some [[1,2,2,2,4,4,8,8],[2,1,4,4,8,8,16,16],[2,4,1,4,8,8,16,16],
                  [2,4,4,1,2,2,4,4],[4,8,8,2,1,4,8,8],[4,8,8,2,4,1,2,2],
                  [8,16,16,4,8,2,1,4],[8,16,16,4,8,2,4,1]]) ∧
    (compute_rational O15 0 12).map
        (fun cls => (matrixAcc cls true).map (fun M =>
          (matToLists 8 M).any (fun row => row.any (fun e => e == 2)) &&
          (matToLists 8 M).any (fun row => row.any (fun e => e == 4)))) =
      some (some true) ∧
    (compute_rational O15 0 12).map
        (fun cls => (matrixAcc cls true).map (fun M =>
          ((matToLists 8 M).map (fun row => row.foldl max 0)).foldl max 0)) =
      some (some 16) :=
  ⟨by decide, by decide, by decide, by decide, by decide, by decide⟩

/-- C9: for the CM discriminant `-23` of class number 3, the candidate
prime set assembled by `isogeny_degrees_cm` before the Frobenius filter
is exactly the set 2, 3, 5, and after the class-group-generator choice
and the Frobenius filtering the returned list is exactly the primes 2
and 3, both through `isogeny_degrees_cm` and through
`possible_isogeny_degrees`. -/
theorem C9_cm_degree_oracle :
    cmCandidates O23 = [2, 3, 5] ∧
    isogeny_degrees_cm O23 = .ok [2, 3] ∧
    possible_isogeny_degrees O23 [] = .ok [2, 3] :=
  ⟨by decide, rfl, rfl⟩


/-! Permutation-matrix algebra for `reorder`. -/

/-- Product of the `n` by `n` corners of two matrix functions. -/
def matMulN (n : ℕ) (A B : ℕ → ℕ → ℕ) : ℕ → ℕ → ℕ :=
  fun i j => ∑ k ∈ Finset.range n, A i k * B k j

/-- The permutation matrix of an index vector: row `i` carries a 1 in
column `p[i]`. -/
def permMat (p : List ℕ) : ℕ → ℕ → ℕ :=
  fun i j => if p.getD i i = j then 1 else 0

/-- Matrix transpose. -/
def transposeM (M : ℕ → ℕ → ℕ) : ℕ → ℕ → ℕ := fun i j => M j i

/-- The identity matrix. -/
def idMat : ℕ → ℕ → ℕ := fun i j => if i = j then 1 else 0

theorem matMulN_permMat_left {n : ℕ} {p : List ℕ} {M : ℕ → ℕ → ℕ} {i j : ℕ}
    (hp : p.getD i i < n) :
    matMulN n (permMat p) M i j = M (p.getD i i) j := by
  unfold matMulN permMat
  rw [Finset.sum_eq_single (p.getD i i)]
  · simp
  · intro k _ hne
    rw [if_neg (Ne.symm hne), zero_mul]
  · intro hmem
    exact absurd (Finset.mem_range.mpr hp) hmem

theorem matMulN_permMat_right {n : ℕ} {p : List ℕ} {M : ℕ → ℕ → ℕ} {i j : ℕ}
    (hp : p.getD j j < n) :
    matMulN n M (transposeM (permMat p)) i j = M i (p.getD j j) := by
  unfold matMulN transposeM permMat
  rw [Finset.sum_eq_single (p.getD j j)]
  · simp
  · intro k _ hne
    rw [if_neg (Ne.symm hne), mul_zero]
  · intro hmem
    exact absurd (Finset.mem_range.mpr hp) hmem

/-- Conjugation by the permutation matrix realizes the index permutation:
`(P * M * P^T)[a][b] = M[p[a]][p[b]]`. -/
theorem conj_eq_permuted {n : ℕ} {p : List ℕ} {M : ℕ → ℕ → ℕ} {a b : ℕ}
    (hpa : p.getD a a < n) (hpb : p.getD b b < n) :
    matMulN n (matMulN n (permMat p) M) (transposeM (permMat p)) a b
      = M (p.getD a a) (p.getD b b) := by
  rw [matMulN_permMat_right hpb, matMulN_permMat_left hpa]

/-- A valid `SymmetricGroup` index vector is a permutation of
`0, ..., n-1`. -/
theorem isPermVec_perm {p : List ℕ} {n : ℕ} (h : isPermVec p n = true) :
    p.Perm (List.range n) := by
  unfold isPermVec at h
  rw [Bool.and_eq_true] at h
  have hlen : p.length = n := by
    have := h.1
    rwa [Nat.beq_eq_true_eq] at this
  have hsub : (List.range n) ⊆ p := by
    intro k hk
    have h2 := (List.all_eq_true.mp h.2) k hk
    exact List.elem_iff.mp h2
  have hsp : (List.range n).Subperm p :=
    List.subperm_of_subset (List.nodup_range n) hsub
  exact (hsp.perm_of_length_le (by rw [hlen, List.length_range])).symm

theorem isPermVec_nodup {p : List ℕ} {n : ℕ} (h : isPermVec p n = true) :
    p.Nodup :=
  ((isPermVec_perm h).nodup_iff).mpr (List.nodup_range n)

theorem isPermVec_lt {p : List ℕ} {n : ℕ} (h : isPermVec p n = true) :
    ∀ x ∈ p, x < n := by
  intro x hx
  have := ((isPermVec_perm h).mem_iff).mp hx
  exact List.mem_range.mp this

theorem isPermVec_length {p : List ℕ} {n : ℕ} (h : isPermVec p n = true) :
    p.length = n := by
  rw [(isPermVec_perm h).length_eq, List.length_range]

theorem isPermVec_getD_lt {p : List ℕ} {n : ℕ} (h : isPermVec p n = true)
    {a : ℕ} (ha : a < n) : p.getD a a < n := by
  have ha2 : a < p.length := by rw [isPermVec_length h]; exact ha
  rw [List.getD_eq_get p a ha2]
  exact isPermVec_lt h _ (List.get_mem p a ha2)

theorem getD_inj_of_nodup {p : List ℕ} (hnd : p.Nodup) {i j : ℕ}
    (hi : i < p.length) (hj : j < p.length)
    (h : p.getD i i = p.getD j j) : i = j := by
  rw [List.getD_eq_get p i hi, List.getD_eq_get p j hj] at h
  have := (List.nodup_iff_injective_get.mp hnd) h
  exact congrArg Fin.val this

/-- `P * P^T` is the identity on the `n` by `n` corner. -/
theorem permMat_mul_transpose {n : ℕ} {p : List ℕ}
    (h : isPermVec p n = true) {i j : ℕ} (hi : i < n) (hj : j < n) :
    matMulN n (permMat p) (transposeM (permMat p)) i j = idMat i j := by
  unfold matMulN transposeM permMat idMat
  rw [Finset.sum_eq_single (p.getD i i)]
  · by_cases hij : i = j
    · subst hij
      rw [if_pos rfl, if_pos rfl, one_mul]
    · have hne : p.getD j j ≠ p.getD i i := fun he =>
        hij (getD_inj_of_nodup (isPermVec_nodup h)
          (by rw [isPermVec_length h]; exact hi)
          (by rw [isPermVec_length h]; exact hj) he.symm)
      rw [if_pos rfl, if_neg hne, if_neg hij, one_mul]
  · intro k _ hne
    rw [if_neg (Ne.symm hne), zero_mul]
  · intro hmem
    exact absurd (Finset.mem_range.mpr (isPermVec_getD_lt h hi)) hmem

/-- `P^T * P` is the identity on the `n` by `n` corner. -/
theorem transpose_mul_permMat {n : ℕ} {p : List ℕ}
    (h : isPermVec p n = true) {i j : ℕ} (hi : i < n) (hj : j < n) :
    matMulN n (transposeM (permMat p)) (permMat p) i j = idMat i j := by
  unfold matMulN transposeM permMat idMat
  have hmemi : i ∈ p := by
    rw [(isPermVec_perm h).mem_iff]
    exact List.mem_range.mpr hi
  obtain ⟨k0, hk0⟩ := List.get?_of_mem hmemi
  obtain ⟨hk0l, hk0e⟩ := List.get?_eq_some.mp hk0
  have hk0d : p.getD k0 k0 = i := by
    rw [List.getD_eq_get p k0 hk0l, hk0e]
  rw [Finset.sum_eq_single k0]
  · by_cases hij : i = j
    · subst hij
      rw [if_pos hk0d, one_mul, if_pos rfl]
    · have hne : p.getD k0 k0 ≠ j := by rw [hk0d]; exact hij
      rw [if_pos hk0d, one_mul, if_neg hne, if_neg hij]
  · intro k hk hne
    have hki : p.getD k k ≠ i := by
      intro he
      apply hne
      refine getD_inj_of_nodup (isPermVec_nodup h) ?_ hk0l (by rw [he, hk0d])
      rw [isPermVec_length h]
      exact Finset.mem_range.mp hk
    rw [if_neg hki, zero_mul]
  · intro hmem
    exact absurd (Finset.mem_range.mpr
      (by rw [isPermVec_length h] at hk0l; exact hk0l)) hmem

/-- Reading a list back off its indices. -/
theorem map_getD_range {α : Type _} (l : List α) (d : α) :
    (List.range l.length).map (fun i => (l.get? i).getD d) = l := by
  apply List.ext
  intro n
  rw [List.get?_map]
  by_cases hn : n < l.length
  · rw [List.get?_range hn]
    simp [List.getElem?_eq_getElem hn]
  · rw [List.get?_eq_none.mpr (Nat.le_of_not_lt hn),
        List.get?_eq_none.mpr (by rw [List.length_range]; exact Nat.le_of_not_lt hn)]
    rfl


/-! Inversion lemmas for `reorder`. -/

theorem reorderCore_ok {O : Oracle C} {cls : IsoClass C} {reordered : List C}
    {b : Bool} {cls2 : IsoClass C}
    (h : reorderCore O cls reordered = .ok (b, cls2)) :
    ∃ p, lookupIndices O cls.curves reordered = some p ∧ b = false ∧
      cls2.curves = p.map (fun j => (cls.curves.get? j).getD cls.E) ∧
      cls2.E = cls.E ∧ cls2.qf = cls.qf ∧ cls2.algorithm = cls.algorithm ∧
      ((∃ M, cls.mat = some M ∧ isPermVec p cls.curves.length = true ∧
          cls2.mat = some (permuteMatL p M) ∧
          cls2.maps = cls.maps.map (permuteMapsL p)) ∨
       (cls.mat = none ∧ cls2.mat = none ∧ cls2.maps = none)) := by
  unfold reorderCore at h
  cases hlk : lookupIndices O cls.curves reordered with
  | none =>
      rw [hlk] at h
      simp only [reorderCoreAux] at h
      cases h
  | some p =>
      rw [hlk] at h
      cases hmat : cls.mat with
      | some M =>
          rw [hmat] at h
          simp only [reorderCoreAux] at h
          by_cases hpv : isPermVec p cls.curves.length = true
          · rw [if_pos hpv] at h
            cases h
            exact ⟨p, rfl, rfl, rfl, rfl, rfl, rfl,
              Or.inl ⟨M, rfl, hpv, rfl, rfl⟩⟩
          · rw [if_neg hpv] at h
            cases h
      | none =>
          rw [hmat] at h
          simp only [reorderCoreAux] at h
          cases h
          exact ⟨p, rfl, rfl, rfl, rfl, rfl, rfl, Or.inr ⟨rfl, rfl, rfl⟩⟩

theorem reorder_ok_cases {O : Oracle C} {algClass : String → List C}
    {cls : IsoClass C} {ord : ReorderArg C} {b : Bool} {cls2 : IsoClass C}
    (h : reorder O algClass cls ord = .ok (b, cls2)) :
    (b = true ∧ cls2 = cls) ∨
    reorderCore O cls (reorderedList O algClass cls ord) = .ok (b, cls2) := by
  cases ord with
  | null =>
      simp only [reorder] at h
      cases h
      exact Or.inl ⟨rfl, rfl⟩
  | str s =>
      simp only [reorder] at h
      by_cases hs : s = cls.algorithm
      · rw [if_pos hs] at h
        cases h
        exact Or.inl ⟨rfl, rfl⟩
      · rw [if_neg hs] at h
        exact Or.inr h
  | curveList l =>
      simp only [reorder] at h
      by_cases hlen : l.length ≠ cls.curves.length
      · rw [if_pos hlen] at h
        cases h
      · rw [if_neg hlen] at h
        exact Or.inr h

/-- C4 counterexample: `reorder` with `order = None` returns the very
receiver (flag `true`), not a freshly allocated object, on the computed
toy class. -/
theorem C4_counterexample :
    ∃ cls : IsoClass ℕ, compute_nf OT 0 [3] "Billerey" 5 = .ok cls ∧
      reorder OT (fun _ => []) cls ReorderArg.null = .ok (true, cls) ∧
      reorder OT (fun _ => []) cls (.str cls.algorithm) = .ok (true, cls) := by
  cases h : compute_nf OT 0 [3] "Billerey" 5 with
  | error e =>
      exfalso
      have hok : (compute_nf OT 0 [3] "Billerey" 5).isOk = true := by decide
      rw [h] at hok
      cases hok
  | ok cls =>
      refine ⟨cls, rfl, rfl, ?_⟩
      simp [reorder]

/-- C4 amended: except for the `order = None` and
`order == self._algorithm` early exits, which return the receiver
itself, `reorder` with an explicit curve list returns a fresh class
(flag `false`) whose curve list is the permuted one and whose degree
matrix is the conjugation `P * M * P^{-1}` of the receiver matrix by
the induced permutation matrix (with `P^{-1} = P^T`, proved as
`P * P^T = P^T * P = 1` on the `n` by `n` corner); the witness matrix
is permuted the same way, and the receiver itself is not modified (the
result is assembled from a copy). -/
theorem C4_amended_theorem (O : Oracle C) (algClass : String → List C)
    (cls : IsoClass C) (l : List C) (M : ℕ → ℕ → ℕ) (b : Bool)
    (cls2 : IsoClass C) (hmat : cls.mat = some M)
    (hok : reorder O algClass cls (.curveList l) = .ok (b, cls2)) :
    b = false ∧
    reorder O algClass cls ReorderArg.null = .ok (true, cls) ∧
    ∃ p, lookupIndices O cls.curves l = some p ∧
      isPermVec p cls.curves.length = true ∧
      cls2.curves = p.map (fun j => (cls.curves.get? j).getD cls.E) ∧
      cls2.mat = some (permuteMatL p M) ∧
      cls2.maps = cls.maps.map (permuteMapsL p) ∧
      (∀ a2 b2, a2 < cls.curves.length → b2 < cls.curves.length →
        permuteMatL p M a2 b2 =
          matMulN cls.curves.length
            (matMulN cls.curves.length (permMat p) M)
            (transposeM (permMat p)) a2 b2) ∧
      (∀ a2 b2, a2 < cls.curves.length → b2 < cls.curves.length →
        matMulN cls.curves.length (permMat p) (transposeM (permMat p)) a2 b2
            = idMat a2 b2 ∧
        matMulN cls.curves.length (transposeM (permMat p)) (permMat p) a2 b2
            = idMat a2 b2) := by
  rcases reorder_ok_cases hok with ⟨hb, -⟩ | hcore
  · exfalso
    simp only [reorder] at hok
    by_cases hlen : l.length ≠ cls.curves.length
    · rw [if_pos hlen] at hok; cases hok
    · rw [if_neg hlen] at hok
      obtain ⟨p, -, hbf, -⟩ := reorderCore_ok hok
      rw [hb] at hbf
      cases hbf
  · obtain ⟨p, hlk, hbf, hcurves, -, -, -, hdisj⟩ := reorderCore_ok hcore
    rcases hdisj with ⟨M2, hmat2, hpv, hmatr, hmapsr⟩ | ⟨hmn, -, -⟩
    · have hM : M2 = M := by
        rw [hmat] at hmat2
        cases hmat2
        rfl
      subst hM
      refine ⟨hbf, ?_, p, hlk, hpv, hcurves, hmatr, hmapsr, ?_, ?_⟩
      · rfl
      · intro a2 b2 ha hb2
        unfold permuteMatL
        rw [conj_eq_permuted (isPermVec_getD_lt hpv ha) (isPermVec_getD_lt hpv hb2)]
      · intro a2 b2 ha hb2
        exact ⟨permMat_mul_transpose hpv ha hb2, transpose_mul_permMat hpv ha hb2⟩
    · rw [hmat] at hmn
      cases hmn

/-- C4 witness: the amended statement applied to the computed toy class
and the explicit ordering that swaps its two curves. -/
theorem C4_amended_witness :
    ∃ (cls cls2 : IsoClass ℕ) (b : Bool) (M : ℕ → ℕ → ℕ),
      compute_nf OT 0 [3] "Billerey" 5 = .ok cls ∧ cls.mat = some M ∧
      reorder OT (fun _ => []) cls (.curveList [0, 1]) = .ok (b, cls2) ∧
      b = false ∧
      reorder OT (fun _ => []) cls ReorderArg.null = .ok (true, cls) := by
  have key : ((compute_nf OT 0 [3] "Billerey" 5).toOption.map (fun c =>
      c.mat.isSome && (reorder OT (fun _ => []) c (.curveList [0, 1])).isOk))
        = some true := by decide
  cases h : compute_nf OT 0 [3] "Billerey" 5 with
  | error e => rw [h] at key; cases key
  | ok cls =>
      rw [h] at key
      simp only [Except.toOption, Option.map_some'] at key
      rw [Option.some_inj] at key
      rw [Bool.and_eq_true] at key
      cases hm : cls.mat with
      | none => rw [hm] at key; cases key.1
      | some M =>
          cases hok : reorder OT (fun _ => []) cls (.curveList [0, 1]) with
          | error e =>
              rw [hok] at key
              cases key.2
          | ok pr =>
              obtain ⟨b, cls2⟩ := pr
              have hall := C4_amended_theorem OT (fun _ => []) cls [0, 1] M b
                cls2 hm hok
              exact ⟨cls, cls2, b, M, rfl, hm, hok, hall.1, hall.2.1⟩

/-- C5 counterexample: on a class whose `_mat` is `None` (here a
`copy()` of the computed toy class, as the `database` algorithm or
`copy` produce), `reorder` with the explicit list that repeats one
curve twice succeeds silently and returns a class whose curve multiset
differs from the receiver's. -/
theorem C5_counterexample :
    ∃ (cls cls2 : IsoClass ℕ),
      compute_nf OT 0 [3] "Billerey" 5 = .ok cls ∧
      (copyClass cls).mat = none ∧
      reorder OT (fun _ => []) (copyClass cls) (.curveList [1, 1])
        = .ok (false, cls2) ∧
      cls2.curves = [1, 1] ∧ (copyClass cls).curves = [1, 0] ∧
      ¬ cls2.curves.Perm (copyClass cls).curves := by
  have key : ((compute_nf OT 0 [3] "Billerey" 5).toOption.map (fun c =>
      match reorder OT (fun _ => []) (copyClass c) (.curveList [1, 1]) with
      | .ok pr =>
          decide (pr.1 = false) && decide (pr.2.curves = [1, 1]) &&
          decide ((copyClass c).curves = [1, 0]) &&
          !(decide (pr.2.curves.Perm (copyClass c).curves))
      | .error _ => false)) = some true := by decide
  cases h : compute_nf OT 0 [3] "Billerey" 5 with
  | error e => rw [h] at key; cases key
  | ok cls =>
      rw [h] at key
      simp only [Except.toOption, Option.map_some'] at key
      rw [Option.some_inj] at key
      cases hok : reorder OT (fun _ => []) (copyClass cls) (.curveList [1, 1]) with
      | error e => rw [hok] at key; cases key
      | ok pr =>
          obtain ⟨b, cls2⟩ := pr
          rw [hok] at key
          simp only [Bool.and_eq_true, Bool.not_eq_true',
            decide_eq_true_eq, decide_eq_false_iff_not] at key
          obtain ⟨⟨⟨hb, hc2⟩, hc1⟩, hnp⟩ := key
          subst hb
          exact ⟨cls, cls2, rfl, rfl, hok, hc2, hc1, hnp⟩

/-- C5 amended: when the degree matrix `_mat` has been computed,
`reorder` with an explicit list of the correct length either fails the
membership lookup (each supplied curve is looked up by equality in the
curve list, falling back to its minimal model) with the "order does not
yield a permutation of curves" error, or, when the lookups succeed but
repeat an index (for example the same curve supplied twice), fails the
`SymmetricGroup` construction with the "invalid permutation" error.
When `_mat` is `None` (a copy or a database class) the permutation
check is skipped and a duplicated list is accepted silently, so the
claimed guarantee holds only for classes with a computed matrix. -/
theorem C5_amended_theorem (O : Oracle C) (algClass : String → List C)
    (cls : IsoClass C) (l : List C) (M : ℕ → ℕ → ℕ)
    (hmat : cls.mat = some M) (hlen : l.length = cls.curves.length) :
    (∀ p, lookupIndices O cls.curves l = some p → ¬ p.Nodup →
      reorder O algClass cls (.curveList l) = .error "invalid permutation") ∧
    (lookupIndices O cls.curves l = none →
      reorder O algClass cls (.curveList l) =
        .error "order does not yield a permutation of curves") := by
  constructor
  · intro p hlk hdup
    simp only [reorder]
    rw [if_neg (by rw [hlen]; exact fun hne => hne rfl)]
    show reorderCore O cls l = _
    unfold reorderCore
    rw [hlk, hmat]
    simp only [reorderCoreAux]
    rw [if_neg (fun hpv => hdup (isPermVec_nodup hpv))]
  · intro hlk
    simp only [reorder]
    rw [if_neg (by rw [hlen]; exact fun hne => hne rfl)]
    show reorderCore O cls l = _
    unfold reorderCore
    rw [hlk]
    simp only [reorderCoreAux]

/-- C5 witness: the amended statement applied to the computed toy class
(whose matrix is present) and the duplicate list, which is rejected
with the invalid-permutation error. -/
theorem C5_amended_witness :
    ∃ (cls : IsoClass ℕ) (M : ℕ → ℕ → ℕ) (p : List ℕ),
      compute_nf OT 0 [3] "Billerey" 5 = .ok cls ∧ cls.mat = some M ∧
      lookupIndices OT cls.curves [1, 1] = some p ∧ ¬ p.Nodup ∧
      reorder OT (fun _ => []) cls (.curveList [1, 1])
        = .error "invalid permutation" := by
  have key : ((compute_nf OT 0 [3] "Billerey" 5).toOption.map (fun c =>
      c.mat.isSome &&
      (match lookupIndices OT c.curves [1, 1] with
       | some p => !(decide p.Nodup) && decide ([1, 1].length = c.curves.length)
       | none => false))) = some true := by decide
  cases h : compute_nf OT 0 [3] "Billerey" 5 with
  | error e => rw [h] at key; cases key
  | ok cls =>
      rw [h] at key
      simp only [Except.toOption, Option.map_some'] at key
      rw [Option.some_inj] at key
      rw [Bool.and_eq_true] at key
      cases hm : cls.mat with
      | none => rw [hm] at key; cases key.1
      | some M =>
          cases hlk : lookupIndices OT cls.curves [1, 1] with
          | none => rw [hlk] at key; cases key.2
          | some p =>
              rw [hlk] at key
              rw [Bool.and_eq_true] at key
              have hdup : ¬ p.Nodup := by
                have h2 := key.2.1
                rw [Bool.not_eq_true', decide_eq_false_iff_not] at h2
                exact h2
              have hlen : ([1, 1] : List ℕ).length = cls.curves.length := by
                have h2 := key.2.2
                rwa [decide_eq_true_eq] at h2
              exact ⟨cls, M, p, rfl, hm, hlk, hdup,
                (C5_amended_theorem OT (fun _ => []) cls [1, 1] M hm hlen).1
                  p hlk hdup⟩



/-! The lexicographic key order and sortedness of `sortBy`. -/

theorem lexLeInt_total : ∀ a b : List Int,
    lexLeInt a b = true ∨ lexLeInt b a = true := by
  intro a
  induction a with
  | nil => intro b; exact Or.inl rfl
  | cons x xs ih =>
      intro b
      cases b with
      | nil => exact Or.inr rfl
      | cons y ys =>
          unfold lexLeInt
          rcases lt_trichotomy x y with hlt | heq | hgt
          · left; rw [if_pos hlt]
          · subst heq
            cases ih ys with
            | inl h2 =>
                left
                rw [if_neg (lt_irrefl x), if_neg (lt_irrefl x)]
                exact h2
            | inr h2 =>
                right
                rw [if_neg (lt_irrefl x), if_neg (lt_irrefl x)]
                exact h2
          · right; rw [if_pos hgt]

theorem lexLeInt_antisymm : ∀ a b : List Int,
    lexLeInt a b = true → lexLeInt b a = true → a = b := by
  intro a
  induction a with
  | nil =>
      intro b hab hba
      cases b with
      | nil => rfl
      | cons y ys => cases hba
  | cons x xs ih =>
      intro b hab hba
      cases b with
      | nil => cases hab
      | cons y ys =>
          unfold lexLeInt at hab hba
          rcases lt_trichotomy x y with hlt | heq | hgt
          · rw [if_neg (lt_asymm hlt), if_pos hlt] at hba
            cases hba
          · subst heq
            rw [if_neg (lt_irrefl x), if_neg (lt_irrefl x)] at hab hba
            rw [ih ys hab hba]
          · rw [if_neg (lt_asymm hgt), if_pos hgt] at hab
            cases hab

theorem lexLeInt_trans : ∀ a b c : List Int,
    lexLeInt a b = true → lexLeInt b c = true → lexLeInt a c = true := by
  intro a
  induction a with
  | nil => intro b c _ _; rfl
  | cons x xs ih =>
      intro b c hab hbc
      cases b with
      | nil => cases hab
      | cons y ys =>
          cases c with
          | nil => cases hbc
          | cons z zs =>
              unfold lexLeInt at hab hbc ⊢
              rcases lt_trichotomy x y with hxy | hxy | hxy
              · rcases lt_trichotomy y z with hyz | hyz | hyz
                · rw [if_pos (lt_trans hxy hyz)]
                · subst hyz; rw [if_pos hxy]
                · rw [if_neg (lt_asymm hyz), if_pos hyz] at hbc
                  cases hbc
              · subst hxy
                rw [if_neg (lt_irrefl x), if_neg (lt_irrefl x)] at hab
                rcases lt_trichotomy x z with hyz | hyz | hyz
                · rw [if_pos hyz]
                · subst hyz
                  rw [if_neg (lt_irrefl x), if_neg (lt_irrefl x)] at hbc ⊢
                  exact ih ys zs hab hbc
                · rw [if_neg (lt_asymm hyz), if_pos hyz] at hbc
                  cases hbc
              · rw [if_neg (lt_asymm hxy), if_pos hxy] at hab
                cases hab

theorem insertSorted_pairwise {le : C → C → Bool}
    (htot : ∀ a b, le a b = true ∨ le b a = true)
    (htrans : ∀ a b c, le a b = true → le b c = true → le a c = true)
    {a : C} {l : List C} (h : List.Pairwise (fun x y => le x y = true) l) :
    List.Pairwise (fun x y => le x y = true) (insertSorted le a l) := by
  induction l with
  | nil => exact List.pairwise_singleton _ _
  | cons b l ih =>
      unfold insertSorted
      by_cases hab : le a b = true
      · rw [if_pos hab]
        apply List.Pairwise.cons
        · intro y hy
          rcases List.mem_cons.mp hy with rfl | hy2
          · exact hab
          · exact htrans a b y hab (List.rel_of_pairwise_cons h hy2)
        · exact h
      · have hba : le b a = true := (htot a b).resolve_left hab
        rw [if_neg hab]
        apply List.Pairwise.cons
        · intro y hy
          have hy2 := (insertSorted_perm le a l).mem_iff.mp hy
          rcases List.mem_cons.mp hy2 with rfl | hy3
          · exact hba
          · exact List.rel_of_pairwise_cons h hy3
        · exact ih (List.Pairwise.sublist (List.sublist_cons_self b l) h)

theorem sortBy_pairwise {le : C → C → Bool}
    (htot : ∀ a b, le a b = true ∨ le b a = true)
    (htrans : ∀ a b c, le a b = true → le b c = true → le a c = true) :
    ∀ l : List C, List.Pairwise (fun x y => le x y = true) (sortBy le l) := by
  intro l
  induction l with
  | nil => exact List.Pairwise.nil
  | cons a l ih =>
      exact insertSorted_pairwise htot htrans ih

/-- Sorting the a-invariant lists of two classes with permuted curve
lists gives the same result: the datum `__richcmp__` and `__hash__`
compare. -/
theorem sortedAinvs_eq_of_perm {O : Oracle C} {a b : IsoClass C}
    (h : a.curves.Perm b.curves) : sortedAinvs O a = sortedAinvs O b := by
  unfold sortedAinvs
  have hperm : (sortBy lexLeInt (a.curves.map O.ainvs)).Perm
      (sortBy lexLeInt (b.curves.map O.ainvs)) :=
    (sortBy_perm lexLeInt _).trans ((h.map O.ainvs).trans
      (sortBy_perm lexLeInt _).symm)
  haveI : IsAntisymm (List ℤ) (fun x y => lexLeInt x y = true) :=
    ⟨fun x y hx hy => lexLeInt_antisymm x y hx hy⟩
  exact List.eq_of_perm_of_sorted hperm
    (sortBy_pairwise lexLeInt_total lexLeInt_trans _)
    (sortBy_pairwise lexLeInt_total lexLeInt_trans _)

/-- C10: equality of isogeny classes ignores curve ordering: two classes
compare equal exactly when the sorted lists of a-invariants of their
curves agree; consequently every valid reorder compares equal to the
receiver, and (the hash being computed from the same sorted tuple)
equal classes have equal hashes. -/
theorem C10_reorder_preserves_equality
    (O : Oracle C) (algClass : String → List C) (cls : IsoClass C)
    (ord : ReorderArg C) (b : Bool) (cls2 : IsoClass C)
    (hok : reorder O algClass cls ord = .ok (b, cls2))
    (hvalid : b = true ∨
      isPermVec ((lookupIndices O cls.curves
          (reorderedList O algClass cls ord)).getD [])
        cls.curves.length = true) :
    (∀ x y : IsoClass C, richcmpEq O x y = true ↔
      sortedAinvs O x = sortedAinvs O y) ∧
    richcmpEq O cls2 cls = true ∧
    ∀ hf : List (List Int) → ℕ,
      hf (sortedAinvs O cls2) = hf (sortedAinvs O cls) := by
  have hiff : ∀ x y : IsoClass C, richcmpEq O x y = true ↔
      sortedAinvs O x = sortedAinvs O y := by
    intro x y
    unfold richcmpEq
    exact beq_iff_eq
  have hmain : sortedAinvs O cls2 = sortedAinvs O cls := by
    rcases reorder_ok_cases hok with ⟨-, hcc⟩ | hcore
    · rw [hcc]
    · obtain ⟨p, hlk, hbf, hcurves, -, -, -, -⟩ := reorderCore_ok hcore
      have hpv : isPermVec p cls.curves.length = true := by
        rcases hvalid with hb | hb
        · rw [hbf] at hb; cases hb
        · rw [hlk] at hb
          exact hb
      apply sortedAinvs_eq_of_perm
      rw [hcurves]
      have h1 := (isPermVec_perm hpv).map
        (fun j => (cls.curves.get? j).getD cls.E)
      rw [map_getD_range cls.curves cls.E] at h1
      exact h1
  exact ⟨hiff, (hiff cls2 cls).mpr hmain, fun hf => congrArg hf hmain⟩

/-- C10 witness: the theorem applied to the computed toy class with the
explicit swap ordering. -/
theorem C10_reorder_preserves_equality_witness :
    ∃ (cls cls2 : IsoClass ℕ) (b : Bool),
      compute_nf OT 0 [3] "Billerey" 5 = .ok cls ∧
      reorder OT (fun _ => []) cls (.curveList [0, 1]) = .ok (b, cls2) ∧
      richcmpEq OT cls2 cls = true := by
  have key : ((compute_nf OT 0 [3] "Billerey" 5).toOption.map (fun c =>
      (reorder OT (fun _ => []) c (.curveList [0, 1])).isOk &&
      isPermVec ((lookupIndices OT c.curves
          (reorderedList OT (fun _ => []) c (.curveList [0, 1]))).getD [])
        c.curves.length)) = some true := by decide
  cases h : compute_nf OT 0 [3] "Billerey" 5 with
  | error e => rw [h] at key; cases key
  | ok cls =>
      rw [h] at key
      simp only [Except.toOption, Option.map_some'] at key
      rw [Option.some_inj] at key
      rw [Bool.and_eq_true] at key
      cases hok : reorder OT (fun _ => []) cls (.curveList [0, 1]) with
      | error e => rw [hok] at key; cases key.1
      | ok pr =>
          obtain ⟨b, cls2⟩ := pr
          exact ⟨cls, cls2, b, rfl, hok,
            (C10_reorder_preserves_equality OT (fun _ => []) cls
              (.curveList [0, 1]) b cls2 hok (Or.inr key.2)).2.1⟩



/-! C2 machinery: soundness and completeness of the recorded tuples, and
symmetry of existence of the degree matrix. -/

theorem add_tup_prefix {ts : List (Tup C)} {t : Tup C} :
    ts <+: add_tup ts t := by
  unfold add_tup
  by_cases h1 : ts.contains t
  · rw [if_pos h1]
    by_cases h2 : ts.contains ⟨t.j, t.i, t.deg, none⟩
    · rw [if_pos h2]
    · rw [if_neg h2]
      exact ⟨_, rfl⟩
  · rw [if_neg h1]
    by_cases h2 : (ts ++ [t]).contains ⟨t.j, t.i, t.deg, none⟩
    · rw [if_pos h2]
      exact ⟨_, rfl⟩
    · rw [if_neg h2]
      exact ⟨[t] ++ [(⟨t.j, t.i, t.deg, none⟩ : Tup C)], by rw [List.append_assoc]⟩

theorem mem_add_tup_self {ts : List (Tup C)} {t : Tup C} :
    t ∈ add_tup ts t := by
  unfold add_tup
  by_cases h1 : ts.contains t
  · have hm : t ∈ ts := by
      rw [List.contains_eq_any_beq] at h1
      rw [List.any_eq_true] at h1
      obtain ⟨u, hu, he⟩ := h1
      rw [beq_iff_eq] at he
      exact he ▸ hu
    rw [if_pos h1]
    by_cases h2 : ts.contains ⟨t.j, t.i, t.deg, none⟩
    · rw [if_pos h2]; exact hm
    · rw [if_neg h2]; exact List.mem_append_left _ hm
  · rw [if_neg h1]
    have hm : t ∈ ts ++ [t] := List.mem_append_right _ (List.mem_singleton.mpr rfl)
    by_cases h2 : (ts ++ [t]).contains ⟨t.j, t.i, t.deg, none⟩
    · rw [if_pos h2]; exact hm
    · rw [if_neg h2]; exact List.mem_append_left _ hm

theorem mem_add_tup {ts : List (Tup C)} {t u : Tup C}
    (h : u ∈ add_tup ts t) :
    u ∈ ts ∨ u = t ∨ u = ⟨t.j, t.i, t.deg, none⟩ := by
  unfold add_tup at h
  by_cases h1 : ts.contains t
  · rw [if_pos h1] at h
    by_cases h2 : ts.contains ⟨t.j, t.i, t.deg, none⟩
    · rw [if_pos h2] at h
      exact Or.inl h
    · rw [if_neg h2] at h
      rcases List.mem_append.mp h with hm | hm
      · exact Or.inl hm
      · exact Or.inr (Or.inr (List.mem_singleton.mp hm))
  · rw [if_neg h1] at h
    by_cases h2 : (ts ++ [t]).contains ⟨t.j, t.i, t.deg, none⟩
    · rw [if_pos h2] at h
      rcases List.mem_append.mp h with hm | hm
      · exact Or.inl hm
      · exact Or.inr (Or.inl (List.mem_singleton.mp hm))
    · rw [if_neg h2] at h
      rcases List.mem_append.mp h with hm | hm
      · rcases List.mem_append.mp hm with hm2 | hm2
        · exact Or.inl hm2
        · exact Or.inr (Or.inl (List.mem_singleton.mp hm2))
      · exact Or.inr (Or.inr (List.mem_singleton.mp hm))

/-- A recorded tuple with a witness points at listed curves joined by an
actual isogeny of the external library with the recorded degree, which
belongs to the relevant degree list. -/
def SoundT (O : Oracle C) (degs : List ℕ) (curves : List C) (t : Tup C) :
    Prop :=
  t.phi.isSome = true →
    ∃ a b, curves.get? t.i = some a ∧ curves.get? t.j = some b ∧
      ∃ phi ∈ O.isogs a, O.iso phi.cod b = true ∧ phi.deg = t.deg ∧
        degs.contains t.deg = true

theorem SoundT_mono {O : Oracle C} {degs : List ℕ} {c1 c2 : List C}
    {t : Tup C} (hpre : c1 <+: c2) (h : SoundT O degs c1 t) :
    SoundT O degs c2 t := by
  intro hw
  obtain ⟨a, b, ha, hb, hrest⟩ := h hw
  exact ⟨a, b, prefix_get? hpre ha, prefix_get? hpre hb, hrest⟩

/-- Every relevant-degree isogeny out of the curve at a processed index
has a recorded witness tuple to a listed curve isomorphic to its
codomain. -/
def Processed (O : Oracle C) (degs : List ℕ) (s : St C) (j : ℕ) : Prop :=
  ∀ a, s.curves.get? j = some a → ∀ phi ∈ isogsDeg O a degs,
    ∃ j2 b, s.curves.get? j2 = some b ∧ O.iso phi.cod b = true ∧
      ∃ t ∈ s.tuples, t.i = j ∧ t.j = j2 ∧ t.phi.isSome = true

/-- Characterization of nonzero entries of the assembled degree matrix,
assuming every witness tuple carries a nonzero degree. -/
theorem matFromTuples_foldl_ne_zero {pf : ℕ → ℕ} :
    ∀ (ts : List (Tup C)) (M0 : ℕ → ℕ → ℕ) (x y : ℕ),
      (∀ t ∈ ts, t.phi.isSome = true → t.deg ≠ 0) →
      ((ts.foldl (fun M t =>
          if t.phi.isSome then
            fun a b => if a = pf t.i ∧ b = pf t.j then t.deg else M a b
          else M) M0) x y ≠ 0 ↔
        (M0 x y ≠ 0 ∨
          ∃ t ∈ ts, t.phi.isSome = true ∧ pf t.i = x ∧ pf t.j = y)) := by
  intro ts
  induction ts with
  | nil =>
      intro M0 x y _
      simp
  | cons t ts ih =>
      intro M0 x y hdeg
      rw [List.foldl_cons]
      rw [ih _ x y (fun u hu => hdeg u (List.mem_cons_of_mem _ hu))]
      by_cases hw : t.phi.isSome = true
      · by_cases hxy : x = pf t.i ∧ y = pf t.j
        · have hM : (if t.phi.isSome then
              (fun a b => if a = pf t.i ∧ b = pf t.j then t.deg else M0 a b)
              else M0) x y = t.deg := by
            rw [if_pos hw, if_pos hxy]
          rw [hM]
          constructor
          · intro _
            exact Or.inr ⟨t, List.mem_cons_self _ _, hw, hxy.1.symm, hxy.2.symm⟩
          · intro _
            exact Or.inl (hdeg t (List.mem_cons_self _ _) hw)
        · have hM : (if t.phi.isSome then
              (fun a b => if a = pf t.i ∧ b = pf t.j then t.deg else M0 a b)
              else M0) x y = M0 x y := by
            rw [if_pos hw, if_neg hxy]
          rw [hM]
          constructor
          · rintro (h0 | ⟨u, hu, hrest⟩)
            · exact Or.inl h0
            · exact Or.inr ⟨u, List.mem_cons_of_mem _ hu, hrest⟩
          · rintro (h0 | ⟨u, hu, huw, hux, huy⟩)
            · exact Or.inl h0
            · rcases List.mem_cons.mp hu with rfl | hu2
              · exact absurd ⟨hux.symm, huy.symm⟩ hxy
              · exact Or.inr ⟨u, hu2, huw, hux, huy⟩
      · have hM : (if t.phi.isSome then
            (fun a b => if a = pf t.i ∧ b = pf t.j then t.deg else M0 a b)
            else M0) x y = M0 x y := by
          rw [if_neg hw]
        rw [hM]
        constructor
        · rintro (h0 | ⟨u, hu, hrest⟩)
          · exact Or.inl h0
          · exact Or.inr ⟨u, List.mem_cons_of_mem _ hu, hrest⟩
        · rintro (h0 | ⟨u, hu, huw, hux, huy⟩)
          · exact Or.inl h0
          · rcases List.mem_cons.mp hu with rfl | hu2
            · exact absurd huw hw
            · exact Or.inr ⟨u, hu2, huw, hux, huy⟩

theorem matFromTuples_ne_zero {pf : ℕ → ℕ} {ts : List (Tup C)}
    (hdeg : ∀ t ∈ ts, t.phi.isSome = true → t.deg ≠ 0) (x y : ℕ) :
    matFromTuples pf ts x y ≠ 0 ↔
      ∃ t ∈ ts, t.phi.isSome = true ∧ pf t.i = x ∧ pf t.j = y := by
  unfold matFromTuples
  rw [matFromTuples_foldl_ne_zero ts _ x y hdeg]
  simp

/-- Symmetry of existence of nonzero entries. -/
def SymExist (M : ℕ → ℕ → ℕ) : Prop := ∀ x y, (M x y ≠ 0 ↔ M y x ≠ 0)

theorem combineDeg_eq_zero {a b : ℕ} : combineDeg a b = 0 ↔ a = 0 ∧ b = 0 := by
  unfold combineDeg
  by_cases ha : a = 0
  · rw [if_pos ha]
    constructor
    · intro hb; exact ⟨ha, hb⟩
    · intro hb; exact hb.2
  · rw [if_neg ha]
    by_cases hb : b = 0
    · rw [if_pos hb]
      constructor
      · intro h2; exact absurd h2 ha
      · intro h2; exact absurd h2.1 ha
    · rw [if_neg hb]
      constructor
      · intro h2
        rcases Nat.le_total a b with hab | hab
        · rw [min_eq_left hab] at h2; exact absurd h2 ha
        · rw [min_eq_right hab] at h2; exact absurd h2 hb
      · intro h2; exact absurd h2.1 ha

theorem fwStep_symExist {k : ℕ} {M : ℕ → ℕ → ℕ} (h : SymExist M) :
    SymExist (fwStep k M) := by
  intro x y
  unfold fwStep
  rw [Ne, combineDeg_eq_zero, Ne, combineDeg_eq_zero]
  have e1 : M x y = 0 ↔ M y x = 0 := not_iff_not.mp (h x y)
  have e2 : M x k = 0 ↔ M k x = 0 := not_iff_not.mp (h x k)
  have e3 : M k y = 0 ↔ M y k = 0 := not_iff_not.mp (h k y)
  rw [Nat.mul_eq_zero, Nat.mul_eq_zero]
  constructor
  · intro hc hcc
    apply hc
    refine ⟨e1.mpr hcc.1, ?_⟩
    rcases hcc.2 with h2 | h2
    · exact Or.inr (e3.mpr h2)
    · exact Or.inl (e2.mpr h2)
  · intro hc hcc
    apply hc
    refine ⟨e1.mp hcc.1, ?_⟩
    rcases hcc.2 with h2 | h2
    · exact Or.inr (e2.mp h2)
    · exact Or.inl (e3.mp h2)

theorem fwIter_symExist {M : ℕ → ℕ → ℕ} (h : SymExist M) :
    ∀ n, SymExist (fwIter M n) := by
  intro n
  induction n with
  | zero => exact h
  | succ n ih => exact fwStep_symExist ih

theorem fill_symExist {n : ℕ} {M : ℕ → ℕ → ℕ} (h : SymExist M) :
    SymExist (fill_isogeny_matrix n M) := by
  unfold fill_isogeny_matrix
  apply fwIter_symExist
  intro x y
  by_cases hxy : x = y
  · subst hxy; exact Iff.rfl
  · show (if x = y then 1 else M x y) ≠ 0 ↔ (if y = x then 1 else M y x) ≠ 0
    rw [if_neg hxy, if_neg (Ne.symm hxy)]
    exact h x y

theorem exceptMap_ok {α : Type _} {g : ℕ → Except String α} :
    ∀ {xs : List ℕ} {l : List α}, exceptMap g xs = .ok l →
      l.length = xs.length ∧
      ∀ k x, xs.get? k = some x → ∃ a, g x = .ok a ∧ l.get? k = some a := by
  intro xs
  induction xs with
  | nil =>
      intro l h
      unfold exceptMap at h
      cases h
      exact ⟨rfl, fun k x hk => by cases hk⟩
  | cons x xs ih =>
      intro l h
      unfold exceptMap at h
      cases hgx : g x with
      | error e => rw [hgx] at h; cases h
      | ok y =>
          rw [hgx] at h
          cases hrec : exceptMap g xs with
          | error e => rw [hrec] at h; cases h
          | ok ys =>
              rw [hrec] at h
              cases h
              obtain ⟨hlen, hall⟩ := ih hrec
              constructor
              · simp [hlen]
              · intro k z hk
                cases k with
                | zero =>
                    cases hk
                    exact ⟨y, hgx, rfl⟩
                | succ k =>
                    obtain ⟨a, hga, hla⟩ := hall k z (by simpa using hk)
                    exact ⟨a, hga, by simpa using hla⟩

theorem cmEntry_symm {O : Oracle C} {sorted : List C} {M : ℕ → ℕ → ℕ}
    {i j : ℕ} : cmEntry O sorted M i j = cmEntry O sorted M j i := by
  unfold cmEntry
  rcases lt_trichotomy i j with hlt | heq | hgt
  · rw [if_neg (Nat.ne_of_lt hlt), if_pos hlt,
        if_neg (Ne.symm (Nat.ne_of_lt hlt)), if_neg (Nat.not_lt_of_gt hlt)]
  · subst heq
    rfl
  · rw [if_neg (Ne.symm (Nat.ne_of_lt hgt)), if_neg (Nat.not_lt_of_gt hgt),
        if_neg (Nat.ne_of_lt hgt), if_pos hgt]

/-- The entry of the CM table at a position, if present. -/
def tableEntry (table : List (List (ℕ × List Int))) (a b : ℕ) :
    Option (ℕ × List Int) :=
  (table.get? a).bind (fun row => row.get? b)

theorem cmTable_entry {O : Oracle C} {sorted : List C} {M : ℕ → ℕ → ℕ}
    {n : ℕ} {table : List (List (ℕ × List Int))}
    (h : cmTable O sorted M n = .ok table) :
    table.length = n ∧
    (∀ row ∈ table, row.length = n) ∧
    ∀ a b, a < n → b < n →
      ∃ e, cmEntry O sorted M a b = .ok e ∧ tableEntry table a b = some e := by
  unfold cmTable at h
  obtain ⟨hlen, hall⟩ := exceptMap_ok h
  refine ⟨by rw [hlen, List.length_range], ?_, ?_⟩
  · intro row hrow
    obtain ⟨k, hk⟩ := List.get?_of_mem hrow
    have hk2 : k < table.length := get?_lt_length hk
    have hk3 : k < n := by rwa [hlen, List.length_range] at hk2
    obtain ⟨a, hga, hla⟩ := hall k k (List.get?_range hk3)
    obtain ⟨hlen2, -⟩ := exceptMap_ok hga
    rw [hk] at hla
    cases hla
    rw [hlen2, List.length_range]
  · intro a b ha hb
    obtain ⟨row, hgrow, hlrow⟩ := hall a a (List.get?_range ha)
    obtain ⟨-, hallrow⟩ := exceptMap_ok hgrow
    obtain ⟨e, hge, hle⟩ := hallrow b b (List.get?_range hb)
    exact ⟨e, hge, by unfold tableEntry; rw [hlrow]; exact hle⟩

theorem tableEntry_none {table : List (List (ℕ × List Int))} {n : ℕ}
    (hlen : table.length = n) (hrows : ∀ row ∈ table, row.length = n)
    {a b : ℕ} (h : n ≤ a ∨ n ≤ b) : tableEntry table a b = none := by
  unfold tableEntry
  rcases h with ha | hb
  · rw [List.get?_eq_none.mpr (by rw [hlen]; exact ha)]
    rfl
  · cases hrow : table.get? a with
    | none => rfl
    | some row =>
        have hmem : row ∈ table := List.get?_mem hrow
        have hnone : row.get? b = none :=
          List.get?_eq_none.mpr (by rw [hrows row hmem]; exact hb)
        simpa using hnone

theorem cmMat_symExist {O : Oracle C} {sorted : List C} {M : ℕ → ℕ → ℕ}
    {n : ℕ} {table : List (List (ℕ × List Int))}
    (h : cmTable O sorted M n = .ok table) (hM : SymExist M) :
    SymExist (cmMat M table) := by
  obtain ⟨hlen, hrows, hent⟩ := cmTable_entry h
  intro x y
  by_cases hx : x < n
  · by_cases hy : y < n
    · obtain ⟨e, hge, hte⟩ := hent x y hx hy
      obtain ⟨e2, hge2, hte2⟩ := hent y x hy hx
      have he : e = e2 := by
        rw [cmEntry_symm] at hge
        rw [hge] at hge2
        cases hge2
        rfl
      subst he
      unfold cmMat tableEntry at *
      rw [hte, hte2]
      simp
    · have h1 := tableEntry_none hlen hrows (a := x) (b := y) (Or.inr (Nat.le_of_not_lt hy))
      have h2 := tableEntry_none hlen hrows (a := y) (b := x) (Or.inl (Nat.le_of_not_lt hy))
      unfold cmMat tableEntry at *
      rw [h1, h2]
      exact hM x y
  · have h1 := tableEntry_none hlen hrows (a := x) (b := y) (Or.inl (Nat.le_of_not_lt hx))
    have h2 := tableEntry_none hlen hrows (a := y) (b := x) (Or.inr (Nat.le_of_not_lt hx))
    unfold cmMat tableEntry at *
    rw [h1, h2]
    exact hM x y



theorem contains_iff_mem {l : List C} {a : C} :
    l.contains a = true ↔ a ∈ l := by
  rw [List.contains_eq_any_beq, List.any_eq_true]
  constructor
  · rintro ⟨u, hu, he⟩
    rw [beq_iff_eq] at he
    exact he ▸ hu
  · intro hm
    exact ⟨a, hm, beq_self_eq_true a⟩

theorem contains_append_left {l l2 : List C} {a : C}
    (h : l.contains a = true) : (l ++ l2).contains a = true :=
  contains_iff_mem.mpr (List.mem_append_left _ (contains_iff_mem.mp h))

theorem mem_add_tup_of_mem {ts : List (Tup C)} {t u : Tup C}
    (h : u ∈ ts) : u ∈ add_tup ts t :=
  ( add_tup_prefix.sublist.subset) h

theorem p1step_tuples_mono {O : Oracle C} {s : St1 C} {phi : Isogeny C}
    {u : Tup C} (h : u ∈ s.tuples) : u ∈ (p1step O s phi).tuples := by
  unfold p1step
  by_cases hany : s.curves.any (fun E3 => O.iso phi.cod E3) = true
  · rw [if_pos hany]; exact h
  · rw [if_neg hany]; exact mem_add_tup_of_mem h

/-- The degree list extended by the degree of a newly added curve. -/
theorem contains_degs_self {degs : List ℕ} {d : ℕ} :
    (if degs.contains d then degs else degs ++ [d]).contains d = true := by
  by_cases h : degs.contains d = true
  · rw [if_pos h]; exact h
  · rw [if_neg h]
    exact contains_iff_mem.mpr (List.mem_append_right _ (List.mem_singleton.mpr rfl))

theorem contains_degs_mono {degs : List ℕ} {d d2 : ℕ}
    (h : degs.contains d = true) :
    (if degs.contains d2 then degs else degs ++ [d2]).contains d = true := by
  by_cases h2 : degs.contains d2 = true
  · rw [if_pos h2]; exact h
  · rw [if_neg h2]; exact contains_append_left h

/-- The phase-1 invariant of `_compute`: recorded tuples are sound for
the collected degrees, collected degrees are candidate degrees, the
seed sits at index 0, and every later curve carries a witness tuple
from index 0. -/
def P1Inv (O : Oracle C) (E : C) (cands : List ℕ) (s : St1 C) : Prop :=
  (∀ t ∈ s.tuples, SoundT O s.degs s.curves t) ∧
  (∀ d, s.degs.contains d = true → cands.contains d = true) ∧
  s.curves.get? 0 = some E ∧
  (∀ k, 1 ≤ k → k < s.curves.length →
    ∃ t ∈ s.tuples, t.i = 0 ∧ t.j = k ∧ t.phi.isSome = true)

theorem SoundT_degs_mono {O : Oracle C} {degs : List ℕ} {d2 : ℕ}
    {curves : List C} {t : Tup C} (h : SoundT O degs curves t) :
    SoundT O (if degs.contains d2 then degs else degs ++ [d2]) curves t := by
  intro hw
  obtain ⟨a, b, ha, hb, phi, hphi, hiso, hdeg, hcont⟩ := h hw
  exact ⟨a, b, ha, hb, phi, hphi, hiso, hdeg, contains_degs_mono hcont⟩

theorem p1step_P1Inv {O : Oracle C} (isoRefl : ∀ a, O.iso a a = true)
    {E : C} {cands : List ℕ} {s : St1 C} {phi : Isogeny C}
    (hphi : phi ∈ isogsDeg O E cands)
    (h : P1Inv O E cands s) : P1Inv O E cands (p1step O s phi) := by
  obtain ⟨hsound, hdegs, hE, htc⟩ := h
  unfold p1step
  by_cases hany : s.curves.any (fun E3 => O.iso phi.cod E3) = true
  · rw [if_pos hany]; exact ⟨hsound, hdegs, hE, htc⟩
  · rw [if_neg hany]
    have hpre : s.curves <+: s.curves ++ [phi.cod] := ⟨_, rfl⟩
    refine ⟨?_, ?_, prefix_get? hpre hE, ?_⟩
    · intro t ht
      rcases mem_add_tup ht with hold | heq | heq
      · exact SoundT_degs_mono (SoundT_mono hpre (hsound t hold))
      · subst heq
        intro _
        refine ⟨E, phi.cod, prefix_get? hpre hE, List.get?_concat_length _ _,
          phi, (List.mem_filter.mp hphi).1, isoRefl _, rfl, contains_degs_self⟩
      · subst heq
        intro hw
        cases hw
    · intro d hd
      by_cases h2 : s.degs.contains phi.deg = true
      · rw [if_pos h2] at hd
        exact hdegs d hd
      · rw [if_neg h2] at hd
        rcases List.mem_append.mp (contains_iff_mem.mp hd) with hm | hm
        · exact hdegs d (contains_iff_mem.mpr hm)
        · rw [List.mem_singleton] at hm
          subst hm
          exact (List.mem_filter.mp hphi).2
    · intro k hk1 hk2
      rw [List.length_append, List.length_singleton] at hk2
      by_cases hk3 : k < s.curves.length
      · obtain ⟨t, ht, h1, h2, h3⟩ := htc k hk1 hk3
        exact ⟨t, mem_add_tup_of_mem ht, h1, h2, h3⟩
      · have hk4 : k = s.curves.length := by omega
        subst hk4
        exact ⟨⟨0, s.curves.length, phi.deg, some phi⟩, mem_add_tup_self,
          rfl, rfl, rfl⟩

theorem phase1_P1Inv {O : Oracle C} (isoRefl : ∀ a, O.iso a a = true)
    {E : C} {cands : List ℕ} : P1Inv O E cands (phase1 O E cands) := by
  unfold phase1
  apply foldl_inv (I := P1Inv O E cands)
    (fun s2 x hx h2 => p1step_P1Inv isoRefl hx h2)
  refine ⟨?_, ?_, rfl, ?_⟩
  · intro t ht
    cases ht
  · intro d hd
    exact absurd hd (by simp [List.contains])
  · intro k hk1 hk2
    rw [List.length_singleton] at hk2
    omega

/-- Phase-1 completeness for one isogeny of the seed: its codomain is
isomorphic to some listed curve, which is the seed itself or carries a
witness tuple from index 0. -/
def P1Q (O : Oracle C) (s : St1 C) (phi : Isogeny C) : Prop :=
  ∃ k b, s.curves.get? k = some b ∧ O.iso phi.cod b = true ∧
    (k = 0 ∨ ∃ t ∈ s.tuples, t.i = 0 ∧ t.j = k ∧ t.phi.isSome = true)

theorem p1step_P1Q_est {O : Oracle C} (isoRefl : ∀ a, O.iso a a = true)
    {E : C} {cands : List ℕ} {s : St1 C} {phi : Isogeny C}
    (h : P1Inv O E cands s) : P1Q O (p1step O s phi) phi := by
  unfold p1step
  by_cases hany : s.curves.any (fun E3 => O.iso phi.cod E3) = true
  · rw [if_pos hany]
    obtain ⟨b, hb, hiso⟩ := List.any_eq_true.mp hany
    obtain ⟨k, hk⟩ := List.get?_of_mem hb
    by_cases hk0 : k = 0
    · exact ⟨k, b, hk, hiso, Or.inl hk0⟩
    · obtain ⟨t, ht, h1, h2, h3⟩ := h.2.2.2 k
        (Nat.one_le_iff_ne_zero.mpr hk0) (get?_lt_length hk)
      exact ⟨k, b, hk, hiso, Or.inr ⟨t, ht, h1, h2, h3⟩⟩
  · rw [if_neg hany]
    exact ⟨s.curves.length, phi.cod, List.get?_concat_length _ _, isoRefl _,
      Or.inr ⟨⟨0, s.curves.length, phi.deg, some phi⟩, mem_add_tup_self,
        rfl, rfl, rfl⟩⟩

theorem p1step_P1Q_mono {O : Oracle C} {s : St1 C} {phi y : Isogeny C}
    (h : P1Q O s phi) : P1Q O (p1step O s y) phi := by
  obtain ⟨k, b, hk, hiso, hdisj⟩ := h
  refine ⟨k, b, prefix_get? p1step_prefix hk, hiso, ?_⟩
  rcases hdisj with h0 | ⟨t, ht, h1, h2, h3⟩
  · exact Or.inl h0
  · exact Or.inr ⟨t, p1step_tuples_mono ht, h1, h2, h3⟩

theorem phase1_P1Q {O : Oracle C} (isoRefl : ∀ a, O.iso a a = true)
    {E : C} {cands : List ℕ} :
    ∀ phi ∈ isogsDeg O E cands, P1Q O (phase1 O E cands) phi := by
  unfold phase1
  intro phi hphi
  exact foldl_inv_forall (I := P1Inv O E cands) (Q := fun phi s2 => P1Q O s2 phi)
    (fun s2 x hx h2 => p1step_P1Inv isoRefl hx h2)
    (fun s2 x hx h2 => p1step_P1Q_est isoRefl h2)
    (fun s2 x y hy h2 => p1step_P1Q_mono h2)
    ⟨[E], [], []⟩
    (by
      refine ⟨?_, ?_, rfl, ?_⟩
      · intro t ht
        cases ht
      · intro d hd
        exact absurd hd (by simp [List.contains])
      · intro k hk1 hk2
        rw [List.length_singleton] at hk2
        omega)
    phi hphi



theorem p2step_tuples_mono {O : Oracle C} {i : ℕ} {s : St C}
    {phi : Isogeny C} {u : Tup C} (h : u ∈ s.tuples) :
    u ∈ (p2step O i s phi).tuples := by
  unfold p2step
  cases firstIdxP (fun E3 => O.iso phi.cod E3) s.curves with
  | some j => exact mem_add_tup_of_mem h
  | none => exact mem_add_tup_of_mem h

theorem p2step_sound {O : Oracle C} {degs : List ℕ} {i : ℕ} {s : St C}
    {Ei : C} {phi : Isogeny C}
    (isoRefl : ∀ a, O.iso a a = true)
    (hEi : s.curves.get? i = some Ei)
    (hphi : phi ∈ isogsDeg O Ei degs)
    (hsound : ∀ t ∈ s.tuples, SoundT O degs s.curves t) :
    ∀ t ∈ (p2step O i s phi).tuples,
      SoundT O degs (p2step O i s phi).curves t := by
  unfold p2step
  cases hidx : firstIdxP (fun E3 => O.iso phi.cod E3) s.curves with
  | some j =>
      intro t ht
      rcases mem_add_tup ht with hold | heq | heq
      · exact hsound t hold
      · subst heq
        intro _
        obtain ⟨c, hc, hpc⟩ := firstIdxP_eq_some hidx
        exact ⟨Ei, c, hEi, hc, phi, (List.mem_filter.mp hphi).1, hpc, rfl,
          (List.mem_filter.mp hphi).2⟩
      · subst heq
        intro hw
        cases hw
  | none =>
      intro t ht
      have hpre : s.curves <+: s.curves ++ [phi.cod] := ⟨_, rfl⟩
      rcases mem_add_tup ht with hold | heq | heq
      · exact SoundT_mono hpre (hsound t hold)
      · subst heq
        intro _
        exact ⟨Ei, phi.cod, prefix_get? hpre hEi, List.get?_concat_length _ _,
          phi, (List.mem_filter.mp hphi).1, isoRefl _, rfl,
          (List.mem_filter.mp hphi).2⟩
      · subst heq
        intro hw
        cases hw

/-- The tuple recorded while processing the isogeny `phi` out of curve
`i`. -/
def PCQ (O : Oracle C) (i : ℕ) (s : St C) (phi : Isogeny C) : Prop :=
  ∃ j2 b, s.curves.get? j2 = some b ∧ O.iso phi.cod b = true ∧
    ∃ t ∈ s.tuples, t.i = i ∧ t.j = j2 ∧ t.phi.isSome = true

theorem p2step_PCQ_est {O : Oracle C} {i : ℕ} {s : St C} {phi : Isogeny C}
    (isoRefl : ∀ a, O.iso a a = true) :
    PCQ O i (p2step O i s phi) phi := by
  unfold p2step
  cases hidx : firstIdxP (fun E3 => O.iso phi.cod E3) s.curves with
  | some j =>
      obtain ⟨c, hc, hpc⟩ := firstIdxP_eq_some hidx
      exact ⟨j, c, hc, hpc, _, mem_add_tup_self, rfl, rfl, rfl⟩
  | none =>
      exact ⟨s.curves.length, phi.cod, List.get?_concat_length _ _, isoRefl _,
        _, mem_add_tup_self, rfl, rfl, rfl⟩

theorem p2step_PCQ_mono {O : Oracle C} {i : ℕ} {s : St C}
    {phi y : Isogeny C} (h : PCQ O i s phi) : PCQ O i (p2step O i s y) phi := by
  obtain ⟨j2, b, hb, hiso, t, ht, h1, h2, h3⟩ := h
  exact ⟨j2, b, prefix_get? p2step_prefix hb, hiso, t,
    p2step_tuples_mono ht, h1, h2, h3⟩

theorem processCurve_eq {O : Oracle C} {degs : List ℕ} {s : St C} {i : ℕ}
    {Ei : C} (hEi : s.curves.get? i = some Ei) :
    processCurve O degs s i = (isogsDeg O Ei degs).foldl (p2step O i) s := by
  unfold processCurve
  rw [hEi]

theorem processCurve_tuples_mono {O : Oracle C} {degs : List ℕ} {s : St C}
    {i : ℕ} {u : Tup C} (h : u ∈ s.tuples) :
    u ∈ (processCurve O degs s i).tuples := by
  unfold processCurve
  cases s.curves.get? i with
  | none => exact h
  | some Ei =>
      exact foldl_inv (I := fun s2 : St C => u ∈ s2.tuples)
        (fun s2 x _ h2 => p2step_tuples_mono h2) s h

theorem processCurve_complete {O : Oracle C} {degs : List ℕ} {s : St C}
    {i : ℕ} (isoRefl : ∀ a, O.iso a a = true)
    {Ei : C} (hEi : s.curves.get? i = some Ei)
    (hsound : ∀ t ∈ s.tuples, SoundT O degs s.curves t) :
    (∀ t ∈ (processCurve O degs s i).tuples,
        SoundT O degs (processCurve O degs s i).curves t) ∧
    (processCurve O degs s i).curves.get? i = some Ei ∧
    ∀ phi ∈ isogsDeg O Ei degs, PCQ O i (processCurve O degs s i) phi := by
  rw [processCurve_eq hEi]
  have hstep : ∀ (s2 : St C) (x : Isogeny C), x ∈ isogsDeg O Ei degs →
      ((∀ t ∈ s2.tuples, SoundT O degs s2.curves t) ∧
        s2.curves.get? i = some Ei) →
      ((∀ t ∈ (p2step O i s2 x).tuples,
          SoundT O degs (p2step O i s2 x).curves t) ∧
        (p2step O i s2 x).curves.get? i = some Ei) :=
    fun s2 x hx h2 =>
      ⟨p2step_sound isoRefl h2.2 hx h2.1, prefix_get? p2step_prefix h2.2⟩
  have hinv := foldl_inv (I := fun s2 : St C =>
      (∀ t ∈ s2.tuples, SoundT O degs s2.curves t) ∧
      s2.curves.get? i = some Ei)
    hstep s ⟨hsound, hEi⟩
  refine ⟨hinv.1, hinv.2, ?_⟩
  exact foldl_inv_forall (I := fun s2 : St C =>
      (∀ t ∈ s2.tuples, SoundT O degs s2.curves t) ∧
      s2.curves.get? i = some Ei)
    (Q := fun phi s2 => PCQ O i s2 phi)
    hstep
    (fun s2 x hx h2 => p2step_PCQ_est isoRefl)
    (fun s2 x y hy h2 => p2step_PCQ_mono h2)
    s ⟨hsound, hEi⟩

theorem Processed_mono {O : Oracle C} {degs : List ℕ} {s s2 : St C} {j : ℕ}
    (hpre : s.curves <+: s2.curves)
    (htup : ∀ u ∈ s.tuples, u ∈ s2.tuples)
    (hj : j < s.curves.length) (h : Processed O degs s j) :
    Processed O degs s2 j := by
  intro a ha phi hphi
  have hx : s.curves.get? j = some (s.curves.get ⟨j, hj⟩) := List.get?_eq_get hj
  have hx2 := prefix_get? hpre hx
  rw [ha] at hx2
  cases hx2
  obtain ⟨j2, b, hb, hiso, t, ht, h1, h2, h3⟩ := h _ hx phi hphi
  exact ⟨j2, b, prefix_get? hpre hb, hiso, t, htup t ht, h1, h2, h3⟩

theorem loop2_L2 {O : Oracle C} {degs : List ℕ}
    (isoRefl : ∀ a, O.iso a a = true) :
    ∀ fuel (s : St C) i s2, loop2 O degs fuel s i = some s2 →
      (∀ t ∈ s.tuples, SoundT O degs s.curves t) →
      (∀ j, 1 ≤ j → j < i → Processed O degs s j) →
      (∀ t ∈ s2.tuples, SoundT O degs s2.curves t) ∧
      (∀ j, 1 ≤ j → j < s2.curves.length → Processed O degs s2 j) := by
  intro fuel
  induction fuel with
  | zero =>
      intro s i s2 h hsound hproc
      unfold loop2 at h
      by_cases hi : i < s.curves.length
      · simp [hi] at h
      · simp only [hi, if_false] at h
        cases h
        exact ⟨hsound, fun j hj1 hj2 =>
          hproc j hj1 (Nat.lt_of_lt_of_le hj2 (Nat.le_of_not_lt hi))⟩
  | succ fuel ih =>
      intro s i s2 h hsound hproc
      unfold loop2 at h
      by_cases hi : i < s.curves.length
      · simp only [hi, if_true] at h
        have hEi : s.curves.get? i = some (s.curves.get ⟨i, hi⟩) :=
          List.get?_eq_get hi
        obtain ⟨hsound2, hEi2, hq⟩ := processCurve_complete isoRefl hEi hsound
        refine ih _ _ _ h hsound2 ?_
        intro j hj1 hj2
        by_cases hji : j < i
        · exact Processed_mono processCurve_prefix
            (fun u hu => processCurve_tuples_mono hu)
            (Nat.lt_trans hji hi) (hproc j hj1 hji)
        · have hji2 : j = i := by omega
          subst hji2
          intro a ha phi hphi
          rw [hEi2] at ha
          cases ha
          exact hq phi hphi
      · simp only [hi, if_false] at h
        cases h
        exact ⟨hsound, fun j hj1 hj2 =>
          hproc j hj1 (Nat.lt_of_lt_of_le hj2 (Nat.le_of_not_lt hi))⟩



theorem loop2_tuples_mono {O : Oracle C} {degs : List ℕ} :
    ∀ fuel (s : St C) i s2, loop2 O degs fuel s i = some s2 →
      ∀ u ∈ s.tuples, u ∈ s2.tuples := by
  intro fuel
  induction fuel with
  | zero =>
      intro s i s2 h u hu
      unfold loop2 at h
      by_cases hi : i < s.curves.length
      · simp [hi] at h
      · simp only [hi, if_false] at h
        cases h
        exact hu
  | succ fuel ih =>
      intro s i s2 h u hu
      unfold loop2 at h
      by_cases hi : i < s.curves.length
      · simp only [hi, if_true] at h
        exact ih _ _ _ h u (processCurve_tuples_mono hu)
      · simp only [hi, if_false] at h
        cases h
        exact hu

/-- Dual-tuple completeness of the closure state: every recorded witness
tuple between distinct indices has a reverse witness tuple.  Uses the
soundness of tuples, the completeness of processing (`Processed`), the
phase-1 completeness for the seed, and pairwise non-isomorphism of the
curve list. -/
theorem tuples_sym {O : Oracle C} {degs cands : List ℕ} {s : St C} {E : C}
    (isoSymm : ∀ a b, O.iso a b = O.iso b a)
    (isoTrans : ∀ a b c, O.iso a b = true → O.iso b c = true →
      O.iso a c = true)
    (dualLaw : ∀ a b phi, phi ∈ O.isogs a → O.iso phi.cod b = true →
      ∃ psi ∈ O.isogs b, O.iso psi.cod a = true ∧ psi.deg = phi.deg)
    (hE : s.curves.get? 0 = some E)
    (hsound : ∀ t ∈ s.tuples, SoundT O degs s.curves t)
    (hproc : ∀ j, 1 ≤ j → j < s.curves.length → Processed O degs s j)
    (hp1 : ∀ phi ∈ isogsDeg O E cands,
      ∃ k b, s.curves.get? k = some b ∧ O.iso phi.cod b = true ∧
        (k = 0 ∨ ∃ t ∈ s.tuples, t.i = 0 ∧ t.j = k ∧ t.phi.isSome = true))
    (hdegs : ∀ d, degs.contains d = true → cands.contains d = true)
    (hpw : PairwiseNonIso O s.curves) :
    ∀ t ∈ s.tuples, t.phi.isSome = true → t.i ≠ t.j →
      ∃ t2 ∈ s.tuples, t2.i = t.j ∧ t2.j = t.i ∧ t2.phi.isSome = true := by
  intro t ht hw hij
  obtain ⟨a, b, ha, hb, phi, hphi, hiso, hdeg, hcont⟩ := hsound t ht hw
  obtain ⟨psi, hpsi, hpsiiso, hpsideg⟩ := dualLaw a b phi hphi hiso
  have hpsidegs : psi ∈ isogsDeg O b degs :=
    List.mem_filter.mpr ⟨hpsi, by rw [hpsideg, hdeg]; exact hcont⟩
  by_cases hj0 : t.j = 0
  · have h0 : s.curves.get? 0 = some b := hj0 ▸ hb
    have hbE : b = E := by
      rw [h0] at hE
      exact Option.some.inj hE
    subst hbE
    have hpsicands : psi ∈ isogsDeg O b cands :=
      List.mem_filter.mpr ⟨(List.mem_filter.mp hpsidegs).1,
        hdegs _ (List.mem_filter.mp hpsidegs).2⟩
    obtain ⟨k, b2, hk, hiso2, hdisj⟩ := hp1 psi hpsicands
    have hki : k = t.i := by
      by_contra hne
      have hab2 : O.iso a b2 = true :=
        isoTrans a psi.cod b2 (by rw [isoSymm]; exact hpsiiso) hiso2
      have hfalse := pairwise_get_false isoSymm hpw
        (fun h2x => hne h2x.symm) ha hk
      exact absurd hab2 (by rw [hfalse]; exact Bool.false_ne_true)
    subst hki
    rcases hdisj with hk0 | ⟨t2, ht2, h1, h2, h3⟩
    · exact absurd (hk0.trans hj0.symm) hij
    · exact ⟨t2, ht2, by rw [h1, hj0], h2, h3⟩
  · have hj1 : 1 ≤ t.j := Nat.one_le_iff_ne_zero.mpr hj0
    have hjlen : t.j < s.curves.length := get?_lt_length hb
    obtain ⟨j2, b2, hb2, hiso2, t2, ht2, h1, h2, h3⟩ :=
      hproc t.j hj1 hjlen b hb psi hpsidegs
    have hji : j2 = t.i := by
      by_contra hne
      have hab2 : O.iso a b2 = true :=
        isoTrans a psi.cod b2 (by rw [isoSymm]; exact hpsiiso) hiso2
      have hfalse := pairwise_get_false isoSymm hpw
        (fun h2x => hne h2x.symm) ha hb2
      exact absurd hab2 (by rw [hfalse]; exact Bool.false_ne_true)
    exact ⟨t2, ht2, h1, by rw [h2, hji], h3⟩

/-- C2: for a successfully computed number-field class, the stored degree
matrix has symmetric existence of entries: for all indices `x ≠ y`, entry
`(x,y)` is nonzero iff `(y,x)` is nonzero.  The external library is
assumed to have an isomorphism test that is reflexive, symmetric and
transitive, to give every prime-degree isogeny a dual of the same degree
(up to isomorphism of endpoints), and to report only nonzero degrees. -/
theorem C2_degree_matrix_symmetric_existence {O : Oracle C} {E0 : C}
    {cands : List ℕ} {alg : String} {fuel : ℕ} {cls : IsoClass C}
    {M : ℕ → ℕ → ℕ}
    (isoRefl : ∀ a, O.iso a a = true)
    (isoSymm : ∀ a b, O.iso a b = O.iso b a)
    (isoTrans : ∀ a b c, O.iso a b = true → O.iso b c = true →
      O.iso a c = true)
    (dualLaw : ∀ a b phi, phi ∈ O.isogs a → O.iso phi.cod b = true →
      ∃ psi ∈ O.isogs b, O.iso psi.cod a = true ∧ psi.deg = phi.deg)
    (degPos : ∀ a phi, phi ∈ O.isogs a → phi.deg ≠ 0)
    (hnf : compute_nf O E0 cands alg fuel = .ok cls)
    (hM : cls.mat = some M) :
    ∀ x y, x ≠ y → (M x y ≠ 0 ↔ M y x ≠ 0) := by
  obtain ⟨s, hloop, hcurves, hEcls, hbr⟩ := compute_nf_ok hnf
  have h0 : P1Inv O (O.gmm E0) cands (phase1 O (O.gmm E0) cands) :=
    phase1_P1Inv isoRefl
  have hE : s.curves.get? 0 = some (O.gmm E0) :=
    prefix_get? ( loop2_prefix _ _ _ _ hloop)
      (prefix_get? phase1_prefix rfl)
  have hLL := loop2_L2 isoRefl fuel _ 1 s hloop h0.1
    (fun j hj1 hj2 => absurd hj2 (by omega))
  have hp1 : ∀ phi ∈ isogsDeg O (O.gmm E0) cands,
      ∃ k b, s.curves.get? k = some b ∧ O.iso phi.cod b = true ∧
        (k = 0 ∨ ∃ t ∈ s.tuples, t.i = 0 ∧ t.j = k ∧
          t.phi.isSome = true) := by
    intro phi hphi
    obtain ⟨k, b, hk, hiso, hdisj⟩ := phase1_P1Q isoRefl phi hphi
    refine ⟨k, b, prefix_get? ( loop2_prefix _ _ _ _ hloop) hk, hiso, ?_⟩
    rcases hdisj with hk0 | ⟨t, ht, h1, h2, h3⟩
    · exact Or.inl hk0
    · exact Or.inr ⟨t, loop2_tuples_mono _ _ _ _ hloop t ht, h1, h2, h3⟩
  have hpw : PairwiseNonIso O s.curves :=
    loop2_pairwise isoSymm _ _ _ _ hloop (phase1_pairwise isoSymm)
  have hsym := tuples_sym isoSymm isoTrans dualLaw hE hLL.1 hLL.2 hp1
    h0.2.1 hpw
  have hdeg0 : ∀ t ∈ s.tuples, t.phi.isSome = true → t.deg ≠ 0 := by
    intro t ht hw
    obtain ⟨a, b, ha, hb, phi, hphi, hiso, hdeg, hcont⟩ := hLL.1 t ht hw
    rw [← hdeg]
    exact degPos a phi hphi
  have hkey : ∀ x y,
      (∃ t ∈ s.tuples, t.phi.isSome = true ∧
        permOf s.curves (nfSorted O (O.gmm E0) s) t.i = x ∧
        permOf s.curves (nfSorted O (O.gmm E0) s) t.j = y) →
      (∃ t ∈ s.tuples, t.phi.isSome = true ∧
        permOf s.curves (nfSorted O (O.gmm E0) s) t.i = y ∧
        permOf s.curves (nfSorted O (O.gmm E0) s) t.j = x) := by
    rintro x y ⟨t, ht, hw, hix, hjy⟩
    by_cases hij : t.i = t.j
    · exact ⟨t, ht, hw, by rw [hij]; exact hjy, by rw [← hij]; exact hix⟩
    · obtain ⟨t2, ht2, h2i, h2j, h2w⟩ := hsym t ht hw hij
      exact ⟨t2, ht2, h2w, by rw [h2i, hjy], by rw [h2j, hix]⟩
  have hpre : SymExist (matFromTuples
      (permOf s.curves (nfSorted O (O.gmm E0) s)) s.tuples) := by
    intro x y
    rw [matFromTuples_ne_zero hdeg0, matFromTuples_ne_zero hdeg0]
    exact ⟨hkey x y, hkey y x⟩
  have hfill : SymExist (nfFmat O (O.gmm E0) s) := by
    unfold nfFmat
    exact fill_symExist hpre
  rcases hbr with ⟨hcm, hmat, hqf⟩ | ⟨hcm, table, htab, hmat, hqf⟩
  · rw [hmat] at hM
    have hMe : nfFmat O (O.gmm E0) s = M := Option.some.inj hM
    subst hMe
    intro x y hxy
    exact hfill x y
  · rw [hmat] at hM
    have hMe : cmMat (nfFmat O (O.gmm E0) s) table = M := Option.some.inj hM
    subst hMe
    intro x y hxy
    exact cmMat_symExist htab hfill x y

/-- C2 witness: the theorem applied to the toy two-curve class, whose
oracle laws hold by case analysis on the two curves. -/
theorem C2_degree_matrix_symmetric_existence_witness :
    ∃ (cls : IsoClass ℕ) (M : ℕ → ℕ → ℕ),
      compute_nf OT 0 [3] "Billerey" 5 = .ok cls ∧
      cls.mat = some M ∧
      ∀ x y, x ≠ y → (M x y ≠ 0 ↔ M y x ≠ 0) := by
  have hR : ∀ a : ℕ, OT.iso a a = true := by
    intro a
    simp [OT]
  have hS : ∀ a b : ℕ, OT.iso a b = OT.iso b a := fun a b => beq_symm_dec
  have hT : ∀ a b c : ℕ, OT.iso a b = true → OT.iso b c = true →
      OT.iso a c = true := by
    intro a b c h1 h2
    simp only [OT] at h1 h2 ⊢
    rw [eq_of_beq h1]
    exact h2
  have hD : ∀ (a b : ℕ) phi, phi ∈ OT.isogs a → OT.iso phi.cod b = true →
      ∃ psi ∈ OT.isogs b, OT.iso psi.cod a = true ∧ psi.deg = phi.deg := by
    intro a b phi hphi hiso
    have hb : phi.cod = b := by
      simp only [OT] at hiso
      exact eq_of_beq hiso
    subst hb
    cases a with
    | zero =>
        simp only [OT, isogsT, List.mem_singleton] at hphi
        subst hphi
        exact ⟨⟨1, 0, 3⟩, by decide, by decide, rfl⟩
    | succ m =>
        cases m with
        | zero =>
            simp only [OT, isogsT, List.mem_singleton] at hphi
            subst hphi
            exact ⟨⟨0, 1, 3⟩, by decide, by decide, rfl⟩
        | succ n =>
            exact absurd hphi (by simp [OT, isogsT])
  have hP : ∀ (a : ℕ) phi, phi ∈ OT.isogs a → phi.deg ≠ 0 := by
    intro a phi hphi
    cases a with
    | zero =>
        simp only [OT, isogsT, List.mem_singleton] at hphi
        subst hphi
        decide
    | succ m =>
        cases m with
        | zero =>
            simp only [OT, isogsT, List.mem_singleton] at hphi
            subst hphi
            decide
        | succ n =>
            exact absurd hphi (by simp [OT, isogsT])
  cases h : compute_nf OT 0 [3] "Billerey" 5 with
  | error e =>
      have hok : (compute_nf OT 0 [3] "Billerey" 5).isOk = true := by decide
      rw [h] at hok
      cases hok
  | ok cls =>
      cases hm : cls.mat with
      | none =>
          have hms : ((compute_nf OT 0 [3] "Billerey" 5).toOption.map
              (fun c => c.mat.isSome)).getD false = true := by decide
          rw [h] at hms
          simp only [Except.toOption, Option.map, Option.getD] at hms
          rw [hm] at hms
          cases hms
      | some M =>
          exact ⟨cls, M, rfl, hm,
            C2_degree_matrix_symmetric_existence hR hS hT hD hP h hm⟩

end IsogenySpec
